import Mathlib

/-!
# Verification of the `oci_builder.layer_builder` layer builder

A shallow embedding of `src/python-original/oci_builder/layer_builder.py`.

Modelling conventions:
* Python strings are Lean `String`; byte contents are `List Nat`.
* Python dicts (insertion-ordered, unique keys, in-place update keeps the
  key's position) are association lists with `dictGet`/`dictSet`/`dictDel`.
* `hashlib.sha256` digests are modelled by `sha256Hex`, a deterministic
  fingerprint of the byte content.  The builder only ever stores digests and
  compares them for equality, so any deterministic function of the content is
  an adequate model of the digest.
* The filesystem tree under the upper root is the inductive `FSNode`; `stat`
  results are a `Meta` record (`st_uid`, `st_gid`, full `st_mode`,
  `st_mtime`).  A regular file also records its inode number (`0` meaning "no
  valid inode", as in `tarfile.gettarinfo`) and whether `st_nlink > 1`.
* The output `tarfile.TarFile` is modelled by `RunState`: the list of entries
  written so far (`addfile` appends), the `inodes` cache that
  `tarfile.gettarinfo` maintains, and `err`, which records the first Python
  exception raised (everything emitted before the exception is kept, nothing
  after it, matching an aborted run).
* `SOURCE_DATE_EPOCH` (`os.environ.get`) is passed as an explicit
  `Option String` parameter.
-/

namespace OCIBuild

/-- `posixpath.split`: the characters after the last slash.  Returns
`some (head, tail)` where `head` still carries the trailing slash, or `none`
when the string has no slash. -/
def splitLastSlash : List Char → Option (List Char × List Char)
  | [] => none
  | c :: rest =>
    match splitLastSlash rest with
    | some (h, t) => some (c :: h, t)
    | none => if c = '/' then some (['/'], rest) else none

/-- `posixpath.split` strips trailing slashes from the head unless the head
consists only of slashes. -/
def stripTrailSlashes (h : List Char) : List Char :=
  if h.all (fun c => c = '/') then h
  else ((h.reverse).dropWhile (fun c => c = '/')).reverse

/-- `os.path.split` (POSIX): split a path into `(dirname, basename)`. -/
def splitPath (p : String) : String × String :=
  match splitLastSlash p.toList with
  | none => ("", p)
  | some (h, t) => (String.mk (stripTrailSlashes h), String.mk t)

/-- `os.path.join` (POSIX, two arguments).  `b.startswith("/")` and
`a.endswith("/")` are single-character tests, written on the character
lists. -/
def joinPath (a b : String) : String :=
  if b.toList.head? = some '/' then b
  else if a = "" ∨ a.toList.getLast? = some '/' then a ++ b
  else a ++ "/" ++ b

/-- Python string comparison: code-point lexicographic order on the
character lists (a proper prefix sorts first). -/
def charListLe : List Char → List Char → Bool
  | [], _ => true
  | _ :: _, [] => false
  | a :: as, b :: bs =>
    if a < b then true else if b < a then false else charListLe as bs

/-- Python `a <= b` on strings. -/
def strLe (a b : String) : Bool := charListLe a.toList b.toList

/-- Decimal digits to a number (`none` on empty input or a non-digit). -/
def digitsToNat (ds : List Char) : Option Nat :=
  if ds.isEmpty then none
  else
    ds.foldl
      (fun acc c =>
        acc.bind
          (fun n =>
            if '0' ≤ c ∧ c ≤ '9' then
              some (n * 10 + (c.toNat - '0'.toNat))
            else none))
      (some 0)

/-- Model of Python `int(s)` on the strings the builder can meet: an
optional minus sign followed by decimal digits (`none` models the
`ValueError`). -/
def pyInt (s : String) : Option Int :=
  match s.toList with
  | '-' :: ds => (digitsToNat ds).map (fun n => -(n : Int))
  | ds => (digitsToNat ds).map (fun n => (n : Int))

/-- Python dict lookup (`d.get(k)` / `d[k]` when present). -/
def dictGet {κ α : Type} [DecidableEq κ] (d : List (κ × α)) (k : κ) : Option α :=
  (d.find? (fun p => decide (p.1 = k))).map Prod.snd

/-- Python dict assignment `d[k] = v`: updating an existing key keeps its
position, a new key is appended at the end. -/
def dictSet {κ α : Type} [DecidableEq κ] (d : List (κ × α)) (k : κ) (v : α) :
    List (κ × α) :=
  if d.any (fun p => decide (p.1 = k)) then
    d.map (fun p => if p.1 = k then (k, v) else p)
  else d ++ [(k, v)]

/-- Python dict deletion `del d[k]` for a present key (the caller checks
presence; see `processLowerMember` for the `KeyError` case). -/
def dictDel {κ α : Type} [DecidableEq κ] (d : List (κ × α)) (k : κ) :
    List (κ × α) :=
  d.filter (fun p => decide (p.1 ≠ k))

/-- Model of a `hashlib.sha256(...).hexdigest()` of a byte string: a
deterministic fingerprint of the content (see the module docstring). -/
def sha256Hex (content : List Nat) : String :=
  "sha256:" ++ toString content

/-- `layer_builder.file_sha256`: stream a whole file object through SHA-256.
The file object is modelled by the byte content it yields. -/
def file_sha256 (content : List Nat) : String :=
  sha256Hex content

/-- `layer_builder.PAX_HEADER_SHA256`. -/
def PAX_HEADER_SHA256 : String := "freedesktopsdk.checksum.sha256"

/-- `layer_builder.PAX_HEADER_XATTR`. -/
def PAX_HEADER_XATTR : String := "SCHILY.xattr."

/-- `layer_builder.attr_set`: the set of PAX items whose key starts with
`SCHILY.xattr.` (`str.startswith` is a code-point prefix test). -/
def attr_set (items : List (String × String)) : Finset (String × String) :=
  (items.filter (fun p => PAX_HEADER_XATTR.toList.isPrefixOf p.1.toList)).toFinset

/-- Tar entry type (`tarfile.REGTYPE`, `DIRTYPE`, `LNKTYPE`, `SYMTYPE`;
`oth` stands for every other type byte: character/block devices, fifos). -/
inductive TType where
  | reg
  | dirT
  | lnk
  | symT
  | oth
deriving DecidableEq, Repr

/-- `tarfile.TarInfo`, restricted to the fields the layer builder reads or
writes. -/
structure TarInfo where
  name : String
  type : TType
  uid : Nat
  gid : Nat
  mode : Nat
  mtime : Int
  size : Nat
  linkname : String
  pax_headers : List (String × String)
deriving DecidableEq, Repr

/-- A member of a lower tar: its header plus (for regular members) the bytes
`extractfile` would yield. -/
structure Member where
  info : TarInfo
  content : List Nat
deriving DecidableEq, Repr

/-- A lower layer tar: its members in archive order. -/
abbrev Layer := List Member

/-- `TarFile.getmember(name)`: the *last* member with the given name, if
any (tarfile documents that the last occurrence wins). -/
def getmemberM (L : Layer) (nm : String) : Option Member :=
  (L.filter (fun m => decide (m.info.name = nm))).getLast?

/-- `TarFile.getmember(name)` projected to the header. -/
def getmember (L : Layer) (nm : String) : Option TarInfo :=
  (getmemberM L nm).map Member.info

/-- `stat` data of an upper filesystem object: `st_uid`, `st_gid`, the full
`st_mode` (type bits included), `st_mtime`. -/
structure Meta where
  uid : Nat
  gid : Nat
  mode : Nat
  mtime : Int
deriving DecidableEq, Repr

/-- A node of the upper filesystem tree.  A `file` carries its inode number
(`0` = no valid inode), whether `st_nlink > 1`, its extended attributes
(values already decoded as in `getallxattr`), and its byte content.  `oth`
stands for device/fifo nodes. -/
inductive FSNode where
  | dir (meta : Meta) (children : List (String × FSNode))
  | file (meta : Meta) (ino : Nat) (nlinkGt1 : Bool)
      (xattrs : List (String × String)) (content : List Nat)
  | sym (meta : Meta) (target : String)
  | oth (meta : Meta)

/-- `entry.is_dir(follow_symlinks=False)`. -/
def isDirNode : FSNode → Bool
  | .dir _ _ => true
  | _ => false

/-- The `os.listxattr`/`os.getxattr` view of a node (empty off regular
files; only files carry xattrs in this model, matching the code's use). -/
def xattrsOf : FSNode → List (String × String)
  | .file _ _ _ xs _ => xs
  | _ => []

/-- The byte content `open(path, "rb")` would stream. -/
def contentOf : FSNode → List Nat
  | .file _ _ _ _ c => c
  | _ => []

/-- `os.readlink(path)`, defined on symlink nodes. -/
def readlinkOf : FSNode → Option String
  | .sym _ t => some t
  | _ => none

/-- `layer_builder.xattr_sha256`: read the `user.checksum.sha256` xattr,
`none` when the attribute does not exist (ENODATA). -/
def xattr_sha256 (xattrs : List (String × String)) : Option String :=
  dictGet xattrs "user.checksum.sha256"

/-- Lines 146-149 of `create_layer`: the checksum used for an upper regular
file — the cached xattr when present and non-empty (`if not checksum:`),
otherwise the content streamed through SHA-256. -/
def upperChecksum (xattrs : List (String × String)) (content : List Nat) :
    String :=
  match xattr_sha256 xattrs with
  | some v => if v = "" then file_sha256 content else v
  | none => file_sha256 content

/-- `stat.S_IMODE`: the twelve low permission bits. -/
def S_IMODE (m : Nat) : Nat := m % 4096

/-- `layer_builder.dummy_tarinfo`: a fresh `TarInfo` named `nm`, copying
`uid`/`gid`/`mode`/`mtime` from `original`, with `size = 0` and
`type = REGTYPE` (and, being fresh, empty `pax_headers` and linkname). -/
def dummy_tarinfo (nm : String) (original : TarInfo) : TarInfo :=
  { name := nm, type := TType.reg, uid := original.uid, gid := original.gid,
    mode := original.mode, mtime := original.mtime, size := 0,
    linkname := "", pax_headers := [] }

/-- One member step of `analyze_lowers` (lines 67-80): fold one lower member
name into the accumulated `lower_files` map (values are indices into the
list of lower tars).  A `.wh.` whiteout whose target key is absent raises
`KeyError` (Python `del` on a missing key). -/
def processLowerMember (acc : List (String × Nat)) (idx : Nat) (nm : String) :
    Except String (List (String × Nat)) :=
  let dn := (splitPath nm).1
  let bn := (splitPath nm).2
  if bn = ".wh..wh..opq" then
    let pref := dn ++ "/"
    Except.ok (acc.filter (fun p => !(pref.toList.isPrefixOf p.1.toList)))
  else if ".wh.".toList.isPrefixOf bn.toList then
    let key := joinPath dn (bn.drop 4)
    if acc.any (fun p => decide (p.1 = key)) then Except.ok (dictDel acc key)
    else Except.error ("KeyError: " ++ key)
  else
    Except.ok (dictSet acc nm idx)

/-- Lines 82-87 of `analyze_lowers`: group the surviving paths' basenames by
parent directory, in `lower_files` insertion order. -/
def buildDirContents (lf : List (String × Nat)) : List (String × List String) :=
  lf.foldl
    (fun ldc p =>
      let dn := (splitPath p.1).1
      let bn := (splitPath p.1).2
      match dictGet ldc dn with
      | none => ldc ++ [(dn, [bn])]
      | some l => dictSet ldc dn (l ++ [bn]))
    []

/-- `layer_builder.analyze_lowers`: fold the ordered lower tars into
`(lower_files, lower_dir_contents)`, or the first exception raised. -/
def analyze_lowers (lowers : List Layer) :
    Except String ((List (String × Nat)) × List (String × List String)) :=
  let folded := lowers.enum.foldl
    (fun eacc il =>
      il.2.foldl
        (fun e m => e.bind (fun a => processLowerMember a il.1 m.info.name))
        eacc)
    (Except.ok [])
  folded.map (fun lf => (lf, buildDirContents lf))

/-- An entry written to the output tar: the header passed to `addfile` and
the content body streamed with it (empty for header-only entries). -/
structure Entry where
  info : TarInfo
  content : List Nat
deriving DecidableEq, Repr

/-- The state of the output `TarFile`: entries written so far, the
`TarFile.inodes` hard-link cache, and the first uncaught exception (after
which the run is aborted and nothing more is written). -/
structure RunState where
  entries : List Entry
  inodes : List (Nat × String)
  err : Option String
deriving DecidableEq, Repr

/-- All inputs of `create_layer` that are threaded unchanged through the
traversal: the lower tars, the two `analyze_lowers` maps, and the value of
`SOURCE_DATE_EPOCH`. -/
structure Ctx where
  lowers : List Layer
  lf : List (String × Nat)
  ldc : List (String × List String)
  epoch : Option String

/-- `output.gettarinfo(name=root, arcname=root_rel)` for a directory: type
`DIRTYPE`, size 0, the full `st_mode` (create_layer applies no mask to
directory headers). -/
def gettarinfoDir (rel : String) (m : Meta) : TarInfo :=
  { name := rel, type := TType.dirT, uid := m.uid, gid := m.gid,
    mode := m.mode, mtime := m.mtime, size := 0, linkname := "",
    pax_headers := [] }

/-- `output.gettarinfo(name=path, arcname=rel)` for a non-directory node,
together with the updated `TarFile.inodes` cache: a regular file whose inode
was already archived under a different arcname (and has `st_nlink > 1`)
becomes `LNKTYPE` with that arcname as linkname; otherwise it is `REGTYPE`
and its inode (when non-zero) is recorded. -/
def gettarinfoFile (rel : String) (node : FSNode)
    (inodes : List (Nat × String)) : TarInfo × List (Nat × String) :=
  match node with
  | .file m ino nl _ c =>
    let asReg : TarInfo × List (Nat × String) :=
      ({ name := rel, type := TType.reg, uid := m.uid, gid := m.gid,
         mode := m.mode, mtime := m.mtime, size := c.length, linkname := "",
         pax_headers := [] },
       if ino ≠ 0 then dictSet inodes ino rel else inodes)
    match dictGet inodes ino with
    | some ar =>
      if nl ∧ ¬(ar = rel) then
        ({ name := rel, type := TType.lnk, uid := m.uid, gid := m.gid,
           mode := m.mode, mtime := m.mtime, size := 0, linkname := ar,
           pax_headers := [] }, inodes)
      else asReg
    | none => asReg
  | .sym m tgt =>
    ({ name := rel, type := TType.symT, uid := m.uid, gid := m.gid,
       mode := m.mode, mtime := m.mtime, size := 0, linkname := tgt,
       pax_headers := [] }, inodes)
  | .oth m =>
    ({ name := rel, type := TType.oth, uid := m.uid, gid := m.gid,
       mode := m.mode, mtime := m.mtime, size := 0, linkname := "",
       pax_headers := [] }, inodes)
  | .dir m _ =>
    ({ name := rel, type := TType.dirT, uid := m.uid, gid := m.gid,
       mode := m.mode, mtime := m.mtime, size := 0, linkname := "",
       pax_headers := [] }, inodes)

/-- `tinfo.pax_headers[k] = v`. -/
def setPax (t : TarInfo) (k v : String) : TarInfo :=
  { t with pax_headers := dictSet t.pax_headers k v }

/-- `output.addfile(tinfo, stream?)`: append an entry to the output. -/
def emitEntry (st : RunState) (t : TarInfo) (body : List Nat) : RunState :=
  { st with entries := st.entries ++ [⟨t, body⟩] }

/-- Abort the run with a raised exception. -/
def raiseErr (st : RunState) (e : String) : RunState :=
  { st with err := some e }

/-- Lines 176-178, the argument actually passed to `extractfile` in the
fallback: hash the content of the member named `nm` of lower tar `L`
(`getmember` raises `KeyError` when absent; `extractfile` yields a stream
only for regular members). -/
def extractHash (L : Layer) (nm : String) : Except String String :=
  match getmemberM L nm with
  | none => Except.error "KeyError: extractfile"
  | some mem =>
    if mem.info.type = TType.reg then Except.ok (file_sha256 mem.content)
    else Except.error "extractfile: not a regular member"

/-- Lines 174-178: the checksum the lower side contributes to the
comparison.  The code tests `other_checksum` for falsiness and then calls
`tar_file.extractfile(other_checksum)` — passing the just-tested falsy
checksum, not the member.  `extractfile(None)` raises `AttributeError`;
`extractfile("")` looks up a member named `""`. -/
def lowerChecksum (L : Layer) (lower_found : TarInfo) : Except String String :=
  match dictGet lower_found.pax_headers PAX_HEADER_SHA256 with
  | none => Except.error "AttributeError: NoneType has no attribute isreg"
  | some w => if w = "" then extractHash L "" else Except.ok w

/-- Lines 157-200 of `create_layer`: given the fully built `tinfo` (PAX
headers set, mode masked, epoch applied) and the checksum computed for the
upper file, decide between skipping, emitting, or raising.  `inodes1` is
the inode cache as updated by `gettarinfo`. -/
def processFileRest (ctx : Ctx) (rel : String) (node : FSNode)
    (tinfo : TarInfo) (checksum : String) (inodes1 : List (Nat × String))
    (st : RunState) : RunState :=
  let emitIt : RunState :=
    if tinfo.type = TType.reg then
      emitEntry { st with inodes := inodes1 } tinfo (contentOf node)
    else
      emitEntry { st with inodes := inodes1 } tinfo []
  match dictGet ctx.lf rel with
  | none => emitIt
  | some idx =>
    let L : Layer := (ctx.lowers.get? idx).getD []
    match getmember L rel with
    | none => raiseErr { st with inodes := inodes1 } "KeyError: getmember"
    | some lower_found =>
      let same_info : Bool :=
        decide (tinfo.type = lower_found.type) &&
        decide (tinfo.uid = lower_found.uid) &&
        decide (tinfo.gid = lower_found.gid) &&
        decide (tinfo.mode = lower_found.mode) &&
        decide (tinfo.mtime = lower_found.mtime) &&
        decide (tinfo.size = lower_found.size) &&
        decide (attr_set tinfo.pax_headers = attr_set lower_found.pax_headers)
      if same_info then
        if tinfo.type = TType.reg then
          match lowerChecksum L lower_found with
          | Except.error e => raiseErr { st with inodes := inodes1 } e
          | Except.ok other =>
            if checksum = other then
              -- skip: `continue`, after pruning the inode cache of this
              -- arcname (lines 180-186)
              { st with
                inodes := inodes1.filter (fun p => decide (p.2 ≠ tinfo.name)) }
            else emitIt
        else if tinfo.type = TType.lnk then
          -- lines 187-189: `pass` — fall through to the emission at the
          -- bottom of the loop body
          emitIt
        else if tinfo.type = TType.symT then
          match readlinkOf node with
          | none => raiseErr { st with inodes := inodes1 } "OSError: readlink"
          | some tgt =>
            if tinfo.linkname = tgt then { st with inodes := inodes1 }
            else emitIt
        else
          raiseErr { st with inodes := inodes1 }
            ("RuntimeError: " ++ rel ++ " unexpected type")
      else emitIt

/-- Lines 150-152: store the content checksum, then every xattr, as PAX
headers. -/
def buildFilePax (t : TarInfo) (xs : List (String × String))
    (checksum : String) : TarInfo :=
  xs.foldl (fun t' p => setPax t' (PAX_HEADER_XATTR ++ p.1) p.2)
    (setPax t PAX_HEADER_SHA256 checksum)

/-- Lines 141-155 of `create_layer`: build the candidate `TarInfo` of an
upper non-directory child (mode masked to permission bits, checksum and
xattr PAX headers for regular files, epoch override), together with the
checksum computed for it and the updated inode cache.  The error case is
`int(epoch)` raising `ValueError`. -/
def buildUpperFile (ctx : Ctx) (relDir nm : String) (node : FSNode)
    (inodes : List (Nat × String)) :
    Except String (TarInfo × String × List (Nat × String)) :=
  let rel := joinPath relDir nm
  let pr := gettarinfoFile rel node inodes
  let t1 : TarInfo := { pr.1 with mode := S_IMODE pr.1.mode }
  let checksum := upperChecksum (xattrsOf node) (contentOf node)
  let t2 : TarInfo :=
    if t1.type = TType.reg then buildFilePax t1 (xattrsOf node) checksum
    else t1
  match ctx.epoch with
  | some s =>
    match pyInt s with
    | none => Except.error "ValueError: int()"
    | some e => Except.ok ({ t2 with mtime := e }, checksum, pr.2)
  | none => Except.ok (t2, checksum, pr.2)

/-- Lines 140-200 of `create_layer`: process one upper non-directory child
`nm` of the directory `relDir`. -/
def processFile (ctx : Ctx) (relDir : String) (nm : String) (node : FSNode)
    (st : RunState) : RunState :=
  if st.err.isSome then st
  else
    match buildUpperFile ctx relDir nm node st.inodes with
    | Except.error e => raiseErr st e
    | Except.ok r =>
      processFileRest ctx (joinPath relDir nm) node r.1 r.2.1 r.2.2 st

/-- Lines 114-117: the directory header, with `if epoch:` — the override
applies when the environment value is a non-empty string (and `int` raises
on a non-integer value). -/
def epochDir (epoch : Option String) (d : TarInfo) : Except String TarInfo :=
  match epoch with
  | some s =>
    if s = "" then Except.ok d
    else
      match pyInt s with
      | some e => Except.ok { d with mtime := e }
      | none => Except.error "ValueError: int()"
  | none => Except.ok d

/-- Lines 131-138: synthesize one whiteout for a lower-view basename absent
from the upper directory. -/
def whiteoutStep (ctx : Ctx) (rel : String) (dirNames fileNames : List String)
    (ob : String) (s : RunState) : RunState :=
  if s.err.isSome then s
  else if ob ∈ fileNames ∨ ob ∈ dirNames then s
  else
    let full := joinPath rel ob
    match dictGet ctx.lf full with
    | none => raiseErr s "KeyError: lower_files"
    | some idx =>
      match getmember ((ctx.lowers.get? idx).getD []) full with
      | none => raiseErr s "KeyError: getmember"
      | some old_info =>
        emitEntry s (dummy_tarinfo (joinPath rel (".wh." ++ ob)) old_info) []

/-- One directory popped from the stack: its path relative to the upper
root, its `stat` data and its `scandir` children. -/
structure DirTask where
  rel : String
  meta : Meta
  children : List (String × FSNode)

/-- The body of one `while stack:` iteration (lines 110-200), emission only
— pushing the subdirectories is the traversal's business.  Order: the
directory's own header, then the whiteouts for vanished lower children (in
`lower_dir_contents` order), then the upper files sorted ascending. -/
def processDir (ctx : Ctx) (t : DirTask) (st : RunState) : RunState :=
  if st.err.isSome then st
  else
    match epochDir ctx.epoch (gettarinfoDir t.rel t.meta) with
    | Except.error e => raiseErr st e
    | Except.ok d1 =>
      let st1 := emitEntry st d1 []
      let dirNames := t.children.filterMap
        (fun p => if isDirNode p.2 then some p.1 else none)
      let fileNames := t.children.filterMap
        (fun p => if isDirNode p.2 then none else some p.1)
      let st2 := ((dictGet ctx.ldc t.rel).getD []).foldl
        (fun s ob => whiteoutStep ctx t.rel dirNames fileNames ob s) st1
      let filePairs := t.children.filterMap
        (fun p => if isDirNode p.2 then none else some p)
      (filePairs.insertionSort (fun a b => strLe a.1 b.1 = true)).foldl
        (fun s p => processFile ctx t.rel p.1 p.2 s) st2

/-- Lines 128-129: the subdirectory tasks of a directory, sorted ascending
by child name (the code sorts the names, then rejoins the path; resolving
the child subtree by name is the same thing for a real directory listing,
whose names are distinct). -/
def dirTasks (rel : String) (cs : List (String × FSNode)) : List DirTask :=
  ((cs.filterMap
      (fun p =>
        match p.2 with
        | .dir m' cs' => some (p.1, m', cs')
        | _ => none)).insertionSort
    (fun a b => strLe a.1 b.1 = true)).map
    (fun x => ⟨joinPath rel x.1, x.2.1, x.2.2⟩)

mutual

/-- Size of a filesystem node (termination measure for the traversal). -/
def sizeN : FSNode → Nat
  | .dir _ cs => 1 + sizeNL cs
  | .file _ _ _ _ _ => 1
  | .sym _ _ => 1
  | .oth _ => 1

/-- Total size of a children list. -/
def sizeNL : List (String × FSNode) → Nat
  | [] => 0
  | p :: rest => sizeN p.2 + sizeNL rest

end

/-- Termination weight of a stack element. -/
def taskW (t : DirTask) : Nat := 1 + sizeNL t.children

/-- Termination weight of a stack. -/
def stackMeasure (l : List DirTask) : Nat := (l.map taskW).sum

theorem sum_taskW_dirTasks_raw (cs : List (String × FSNode)) :
    (((cs.filterMap
        (fun p =>
          match p.2 with
          | FSNode.dir m' cs' => some (p.1, m', cs')
          | _ => none)).map (fun x => 1 + sizeNL x.2.2)).sum) ≤ sizeNL cs := by
  induction cs with
  | nil => simp
  | cons p rest ih =>
    have hL : sizeNL (p :: rest) = sizeN p.2 + sizeNL rest := rfl
    cases hp : p.2 with
    | dir m' cs' =>
      have hsz : sizeN p.2 = 1 + sizeNL cs' := by
        rw [hp, sizeN]
      simp only [List.filterMap_cons, hp, List.map_cons, List.sum_cons]
      omega
    | file m i n x c =>
      have hsz : sizeN p.2 = 1 := by rw [hp, sizeN]
      simp only [List.filterMap_cons, hp]
      omega
    | sym m t =>
      have hsz : sizeN p.2 = 1 := by rw [hp, sizeN]
      simp only [List.filterMap_cons, hp]
      omega
    | oth m =>
      have hsz : sizeN p.2 = 1 := by rw [hp, sizeN]
      simp only [List.filterMap_cons, hp]
      omega

theorem stackMeasure_dirTasks (rel : String) (cs : List (String × FSNode)) :
    stackMeasure (dirTasks rel cs) ≤ sizeNL cs := by
  unfold stackMeasure dirTasks
  rw [List.map_map]
  have hperm :
      ((cs.filterMap
          (fun p =>
            match p.2 with
            | FSNode.dir m' cs' => some (p.1, m', cs')
            | _ => none)).insertionSort (fun a b => strLe a.1 b.1 = true)).Perm
        (cs.filterMap
          (fun p =>
            match p.2 with
            | FSNode.dir m' cs' => some (p.1, m', cs')
            | _ => none)) :=
    List.perm_insertionSort _ _
  have hmap := hperm.map (taskW ∘ fun x => (⟨joinPath rel x.1, x.2.1, x.2.2⟩ : DirTask))
  rw [hmap.sum_eq]
  have : (taskW ∘ fun x : String × Meta × List (String × FSNode) =>
      (⟨joinPath rel x.1, x.2.1, x.2.2⟩ : DirTask)) =
      fun x : String × Meta × List (String × FSNode) => 1 + sizeNL x.2.2 := by
    funext x
    rfl
  rw [this]
  exact sum_taskW_dirTasks_raw cs

theorem stackMeasure_append (a b : List DirTask) :
    stackMeasure (a ++ b) = stackMeasure a + stackMeasure b := by
  unfold stackMeasure
  rw [List.map_append, List.sum_append]

theorem stackMeasure_reverse (a : List DirTask) :
    stackMeasure a.reverse = stackMeasure a := by
  unfold stackMeasure
  rw [List.map_reverse, List.sum_reverse]

/-- The `while stack:` loop of `create_layer` (lines 108-200): pop the last
element, emit for it, push its subdirectories in reverse sorted order so
they pop in ascending order. -/
def stackRun (ctx : Ctx) (stack : List DirTask) (st : RunState) : RunState :=
  match h : stack.getLast? with
  | none => st
  | some el =>
    stackRun ctx (stack.dropLast ++ (dirTasks el.rel el.children).reverse)
      (processDir ctx el st)
termination_by stackMeasure stack
decreasing_by
  have hne : stack ≠ [] := by
    intro hnil
    rw [hnil] at h
    simp at h
  have hsplit : stack.dropLast ++ [el] = stack := by
    have hlast : stack.getLast hne = el := by
      have := List.getLast?_eq_getLast stack hne
      rw [this] at h
      exact (Option.some.injEq _ _).mp h
    rw [← hlast]
    exact List.dropLast_append_getLast hne
  have h1 : stackMeasure stack = stackMeasure stack.dropLast + taskW el := by
    rw [← hsplit, stackMeasure_append]
    simp [stackMeasure]
  have h2 := stackMeasure_dirTasks el.rel el.children
  rw [stackMeasure_append, stackMeasure_reverse]
  have h3 : taskW el = 1 + sizeNL el.children := rfl
  omega

/-- The same traversal written as the recursive depth-first descent the
specification describes: process each directory (header, whiteouts, sorted
files), then recurse into its subdirectories in ascending order. -/
def dfsList (ctx : Ctx) (l : List DirTask) (st : RunState) : RunState :=
  match l with
  | [] => st
  | x :: xs =>
    dfsList ctx xs
      (dfsList ctx (dirTasks x.rel x.children) (processDir ctx x st))
termination_by stackMeasure l
decreasing_by
  · have h2 := stackMeasure_dirTasks x.rel x.children
    have h3 : stackMeasure (x :: xs) = taskW x + stackMeasure xs := by
      simp [stackMeasure]
    have h4 : taskW x = 1 + sizeNL x.children := rfl
    omega
  · have h3 : stackMeasure (x :: xs) = taskW x + stackMeasure xs := by
      simp [stackMeasure]
    have h4 : taskW x = 1 + sizeNL x.children := rfl
    omega

/-- Depth-first processing of a single directory task. -/
def dfsNode (ctx : Ctx) (x : DirTask) (st : RunState) : RunState :=
  dfsList ctx (dirTasks x.rel x.children) (processDir ctx x st)

/-- `layer_builder.create_layer(output, upper, lowers)` with
`SOURCE_DATE_EPOCH` as an explicit parameter: fold the lowers, then walk
the upper tree from its root (whose relative path is `"."`), starting from
a fresh output tar. -/
def create_layer (upper : FSNode) (lowers : List Layer)
    (epoch : Option String) : RunState :=
  match analyze_lowers lowers with
  | Except.error e => ⟨[], [], some e⟩
  | Except.ok lfldc =>
    match upper with
    | .dir m cs =>
      stackRun ⟨lowers, lfldc.1, lfldc.2, epoch⟩ [⟨".", m, cs⟩] ⟨[], [], none⟩
    | _ => ⟨[], [], some "NotADirectoryError"⟩

/-- The specification's description of the traversal: the same emission
logic, but as a recursive depth-first descent with ascending subdirectory
order. -/
def dfsCreate (upper : FSNode) (lowers : List Layer)
    (epoch : Option String) : RunState :=
  match analyze_lowers lowers with
  | Except.error e => ⟨[], [], some e⟩
  | Except.ok lfldc =>
    match upper with
    | .dir m cs =>
      dfsNode ⟨lowers, lfldc.1, lfldc.2, epoch⟩ ⟨".", m, cs⟩ ⟨[], [], none⟩
    | _ => ⟨[], [], some "NotADirectoryError"⟩

/-- `stackRun` on the empty stack. -/
theorem stackRun_nil (ctx : Ctx) (st : RunState) : stackRun ctx [] st = st := by
  rw [stackRun]
  rfl

/-- One `while stack:` iteration: pop the last element, emit for it, push
its subdirectory tasks in reverse sorted order. -/
theorem stackRun_step (ctx : Ctx) (s : List DirTask) (el : DirTask)
    (st : RunState) :
    stackRun ctx (s ++ [el]) st =
      stackRun ctx (s ++ (dirTasks el.rel el.children).reverse)
        (processDir ctx el st) := by
  rw [stackRun]
  split
  · rename_i h
    rw [List.getLast?_concat] at h
    cases h
  · rename_i el1 h
    rw [List.getLast?_concat] at h
    cases h
    rw [List.dropLast_concat]

/-- A singleton stack processes its element. -/
theorem stackRun_one (ctx : Ctx) (el : DirTask) (st : RunState) :
    stackRun ctx [el] st =
      stackRun ctx ((dirTasks el.rel el.children).reverse)
        (processDir ctx el st) := by
  have h := stackRun_step ctx [] el st
  simpa using h

/-- `dfsList` on the empty task list. -/
theorem dfsList_nil (ctx : Ctx) (st : RunState) : dfsList ctx [] st = st := by
  rw [dfsList]

/-- `dfsList` on a task: process the directory, descend into its sorted
subdirectories, then continue with the remaining tasks. -/
theorem dfsList_cons (ctx : Ctx) (x : DirTask) (xs : List DirTask)
    (st : RunState) :
    dfsList ctx (x :: xs) st =
      dfsList ctx xs
        (dfsList ctx (dirTasks x.rel x.children) (processDir ctx x st)) := by
  rw [dfsList]

/-- A one-directory upper tree (no subdirectories) is processed by a single
loop iteration. -/
theorem create_layer_flat (m : Meta) (cs : List (String × FSNode))
    (lowers : List Layer) (epoch : Option String)
    (lf : List (String × Nat)) (ldc : List (String × List String))
    (ha : analyze_lowers lowers = Except.ok (lf, ldc))
    (hd : dirTasks "." cs = []) :
    create_layer (FSNode.dir m cs) lowers epoch =
      processDir ⟨lowers, lf, ldc, epoch⟩ ⟨".", m, cs⟩ ⟨[], [], none⟩ := by
  unfold create_layer
  rw [ha]
  show stackRun ⟨lowers, lf, ldc, epoch⟩ [⟨".", m, cs⟩] ⟨[], [], none⟩ = _
  have h1 := stackRun_one ⟨lowers, lf, ldc, epoch⟩ ⟨".", m, cs⟩ ⟨[], [], none⟩
  rw [h1]
  have h2 : dirTasks (DirTask.mk "." m cs).rel (DirTask.mk "." m cs).children
      = [] := hd
  rw [h2]
  exact stackRun_nil _ _

/-! ## Dictionary and PAX-key helper lemmas -/

/-- Looking up the key at the head of an association list. -/
theorem dictGet_cons_self {κ α : Type} [DecidableEq κ] (k : κ) (v : α)
    (rest : List (κ × α)) : dictGet ((k, v) :: rest) k = some v := by
  simp [dictGet, List.find?_cons]

/-- `d[k] = v` keeps a head entry whose key is not `k` in head position. -/
theorem dictSet_head_ne {κ α : Type} [DecidableEq κ] (h : κ × α)
    (rest : List (κ × α)) (k : κ) (v : α) (hk : ¬ h.1 = k) :
    ∃ rest', dictSet (h :: rest) k v = h :: rest' := by
  unfold dictSet
  by_cases hany : (h :: rest).any (fun p => decide (p.1 = k))
  · rw [if_pos hany]
    refine ⟨rest.map (fun p => if p.1 = k then (k, v) else p), ?_⟩
    simp [if_neg hk]
  · rw [if_neg hany]
    exact ⟨rest ++ [(k, v)], by simp⟩

/-- No `SCHILY.xattr.`-prefixed key is the checksum key. -/
theorem schily_key_ne_sha (a : String) :
    ¬ (PAX_HEADER_XATTR ++ a = PAX_HEADER_SHA256) := by
  intro h
  have h2 := congrArg String.data h
  rw [String.data_append] at h2
  have h3 := congrArg (fun l => List.take 13 l) h2
  simp only at h3
  rw [List.take_append_of_le_length (by decide)] at h3
  exact absurd h3 (by decide)

/-- After storing the checksum into fresh PAX headers and then folding in
the `SCHILY.xattr.` entries, the checksum key still resolves to the stored
checksum. -/
theorem dictGet_buildFilePax_sha (t : TarInfo) (ht : t.pax_headers = [])
    (xs : List (String × String)) (cs : String) :
    dictGet (buildFilePax t xs cs).pax_headers PAX_HEADER_SHA256 = some cs := by
  suffices h : ∀ (ys : List (String × String)) (t' : TarInfo)
      (rest : List (String × String)),
      t'.pax_headers = (PAX_HEADER_SHA256, cs) :: rest →
      ∃ rest',
        (ys.foldl (fun a p => setPax a (PAX_HEADER_XATTR ++ p.1) p.2)
            t').pax_headers = (PAX_HEADER_SHA256, cs) :: rest' by
    unfold buildFilePax
    obtain ⟨rest', hr⟩ := h xs (setPax t PAX_HEADER_SHA256 cs) []
      (by
        have e : (setPax t PAX_HEADER_SHA256 cs).pax_headers =
            dictSet t.pax_headers PAX_HEADER_SHA256 cs := rfl
        rw [e, ht]
        rfl)
    rw [hr]
    exact dictGet_cons_self _ _ _
  intro ys
  induction ys with
  | nil =>
    intro t' rest h
    exact ⟨rest, h⟩
  | cons p ps ih =>
    intro t' rest h
    obtain ⟨r2, hr2⟩ := dictSet_head_ne (PAX_HEADER_SHA256, cs) rest
      (PAX_HEADER_XATTR ++ p.1) p.2
      (fun hc => schily_key_ne_sha p.1 hc.symm)
    refine ih (setPax t' (PAX_HEADER_XATTR ++ p.1) p.2) r2 ?_
    have e : (setPax t' (PAX_HEADER_XATTR ++ p.1) p.2).pax_headers =
        dictSet t'.pax_headers (PAX_HEADER_XATTR ++ p.1) p.2 := rfl
    rw [e, h]
    exact hr2

/-- Prefix test against a single character. -/
theorem singleton_isPrefixOf_iff (c : Char) (l : List Char) :
    [c].isPrefixOf l = true ↔ l.head? = some c := by
  cases l with
  | nil =>
    have e : [c].isPrefixOf ([] : List Char) = false := rfl
    rw [e]
    simp
  | cons a t =>
    have e : [c].isPrefixOf (a :: t) =
        (c == a && List.isPrefixOf ([] : List Char) t) := rfl
    have e2 : List.isPrefixOf ([] : List Char) t = true := by
      cases t <;> rfl
    rw [e, e2, Bool.and_true, beq_iff_eq]
    constructor
    · intro h
      subst h
      rfl
    · intro h
      have h2 : some a = some c := h
      injection h2 with h3
      exact h3.symm

/-- `gettarinfo` always returns fresh, empty PAX headers. -/
theorem gettarinfoFile_pax_empty (rel : String) (node : FSNode)
    (inodes : List (Nat × String)) :
    (gettarinfoFile rel node inodes).1.pax_headers = [] := by
  unfold gettarinfoFile
  cases node with
  | file m ino nl xs c =>
    dsimp only
    cases hg : dictGet inodes ino with
    | none => rfl
    | some ar =>
      dsimp only
      by_cases hc : nl = true ∧ ¬(ar = rel)
      · rw [if_pos hc]
      · rw [if_neg hc]
  | sym m t => rfl
  | oth m => rfl
  | dir m cs => rfl

/-- What lines 141-155 guarantee for a regular-file node: the returned
checksum is `upperChecksum` of the node's xattrs and content, and when the
candidate header is a regular file its PAX checksum header holds exactly
that checksum. -/
theorem buildUpperFile_file_ok (ctx : Ctx) (relDir nm : String) (m : Meta)
    (ino : Nat) (nl : Bool) (xs : List (String × String))
    (content : List Nat) (inodes : List (Nat × String)) (tinfo : TarInfo)
    (checksum : String) (inodes1 : List (Nat × String))
    (hbuild : buildUpperFile ctx relDir nm (FSNode.file m ino nl xs content)
      inodes = Except.ok (tinfo, checksum, inodes1)) :
    checksum = upperChecksum xs content ∧
    (tinfo.type = TType.reg →
      dictGet tinfo.pax_headers PAX_HEADER_SHA256 = some checksum) := by
  unfold buildUpperFile at hbuild
  have hxa : xattrsOf (FSNode.file m ino nl xs content) = xs := rfl
  rw [hxa] at hbuild
  set rel := joinPath relDir nm with hrel
  set t1 : TarInfo :=
    { (gettarinfoFile rel (FSNode.file m ino nl xs content) inodes).1 with
      mode := S_IMODE
        (gettarinfoFile rel (FSNode.file m ino nl xs content) inodes).1.mode }
    with ht1
  have hpax1 : t1.pax_headers = [] :=
    gettarinfoFile_pax_empty rel (FSNode.file m ino nl xs content) inodes
  set cs0 := upperChecksum xs (contentOf (FSNode.file m ino nl xs content))
    with hcs0
  set t2 : TarInfo :=
    if t1.type = TType.reg then buildFilePax t1 xs cs0 else t1 with ht2
  have hkey : ∀ tf : TarInfo, tf = t2 → tinfo.pax_headers = tf.pax_headers →
      tinfo.type = tf.type → checksum = cs0 →
      checksum = upperChecksum xs content ∧
      (tinfo.type = TType.reg →
        dictGet tinfo.pax_headers PAX_HEADER_SHA256 = some checksum) := by
    intro tf htf hpax htype hchk
    constructor
    · rw [hchk, hcs0]
      rfl
    · intro hreg
      rw [hpax, htf, ht2]
      by_cases hr1 : t1.type = TType.reg
      · rw [if_pos hr1]
        rw [dictGet_buildFilePax_sha t1 hpax1 xs cs0, hchk]
      · exfalso
        rw [htf, ht2, if_neg hr1] at htype
        exact hr1 (htype ▸ hreg)
  cases hep : ctx.epoch with
  | none =>
    rw [hep] at hbuild
    dsimp only at hbuild
    have hinj := Except.ok.inj hbuild
    exact hkey t2 rfl (congrArg (fun q => q.1.pax_headers) hinj).symm
      (congrArg (fun q => q.1.type) hinj).symm
      (congrArg (fun q => q.2.1) hinj).symm
  | some sE =>
    rw [hep] at hbuild
    dsimp only at hbuild
    cases hsi : pyInt sE with
    | none =>
      rw [hsi] at hbuild
      cases hbuild
    | some e =>
      rw [hsi] at hbuild
      dsimp only at hbuild
      have hinj := Except.ok.inj hbuild
      exact hkey t2 rfl (congrArg (fun q => q.1.pax_headers) hinj).symm
        (congrArg (fun q => q.1.type) hinj).symm
        (congrArg (fun q => q.2.1) hinj).symm

/-! ## Concrete fixtures used by witnesses and counterexamples -/

/-- `stat` of a regular file: mode `0o100644`, mtime 5. -/
def fxMetaFile : Meta := ⟨0, 0, 33188, 5⟩

/-- `stat` of a directory: mode `0o40755`, mtime 5. -/
def fxMetaDir : Meta := ⟨0, 0, 16877, 5⟩

/-- An upper tree holding the single regular file `a.txt` with content
`hi`. -/
def fxKids : List (String × FSNode) :=
  [("a.txt", FSNode.file fxMetaFile 0 false [] [104, 105])]

/-- The upper tree `{a.txt: "hi"}`. -/
def fxUpper : FSNode := FSNode.dir fxMetaDir fxKids

/-- A lower tar whose `./a.txt` entry matches `fxUpper`'s file on every
stat field and xattr set but carries no checksum PAX header. -/
def fxLowerNoSha : Layer :=
  [⟨{ name := "./a.txt", type := TType.reg, uid := 0, gid := 0, mode := 420,
      mtime := 5, size := 2, linkname := "", pax_headers := [] },
    [104, 105]⟩]

/-- Claim C4 — the code raises `KeyError` on a whiteout whose target is not
in the accumulated map, instead of ignoring it silently: on the lower stack
consisting of one tar whose sole member is `.wh.foo` (no prior `foo`),
`analyze_lowers` aborts with `KeyError` instead of completing with an
unchanged (empty) accumulator; the single offending member step shows the
same. -/
theorem C4_whiteout_missing_target_raises :
    analyze_lowers
        [[⟨{ name := ".wh.foo", type := TType.reg, uid := 0, gid := 0,
             mode := 420, mtime := 0, size := 0, linkname := "",
             pax_headers := [] }, []⟩]] =
      Except.error "KeyError: foo" ∧
    processLowerMember [] 0 ".wh.foo" = Except.error "KeyError: foo" :=
  ⟨rfl, rfl⟩

/-- Claim C2 — the code does not stream the lower member's content when the
lower lacks the checksum PAX header: it passes the falsy checksum itself to
`extractfile`, which raises `AttributeError`.  On the matched pair
(`fxUpper`, `fxLowerNoSha`) the run aborts with the `AttributeError` and
emits only the root directory header (no comparison, no elision, no file
entry). -/
theorem C2_checksum_fallback_crashes :
    (create_layer fxUpper [fxLowerNoSha] none).err =
      some "AttributeError: NoneType has no attribute isreg" ∧
    (create_layer fxUpper [fxLowerNoSha] none).entries.map
        (fun e => e.info.name) = ["."] := by
  have h := create_layer_flat fxMetaDir fxKids [fxLowerNoSha] none
    [("./a.txt", 0)] [(".", ["a.txt"])] rfl rfl
  have hu : fxUpper = FSNode.dir fxMetaDir fxKids := rfl
  rw [hu, h]
  exact ⟨by decide, by decide⟩

/-- Claim C10 — an opaque-whiteout member `.wh..wh..opq` at the archive
root: its directory part is empty, so the deletion prefix becomes `"/"`,
which no accumulated relative path (none starting with `/`) matches; the
member step returns the accumulator unchanged and raises nothing. -/
theorem C10_root_opaque_noop (acc : List (String × Nat)) (idx : Nat)
    (h : ∀ p ∈ acc, ¬ p.1.toList.head? = some '/') :
    processLowerMember acc idx ".wh..wh..opq" = Except.ok acc := by
  unfold processLowerMember
  have h1 : (splitPath ".wh..wh..opq").2 = ".wh..wh..opq" := rfl
  have h0 : (splitPath ".wh..wh..opq").1 = "" := rfl
  rw [h0, h1, if_pos rfl]
  dsimp only
  have h2 : ("" ++ "/" : String) = "/" := rfl
  rw [h2]
  congr 1
  apply List.filter_eq_self.mpr
  intro p hp
  cases hb : "/".toList.isPrefixOf p.1.toList with
  | false => rfl
  | true =>
    have h3 : ['/'].isPrefixOf p.1.toList = true := hb
    exact absurd ((singleton_isPrefixOf_iff '/' p.1.toList).mp h3) (h p hp)

/-- Witness for C10 at a concrete accumulator. -/
theorem C10_root_opaque_noop_witness :
    (∀ p ∈ ([("a/b", 0), ("c", 1)] : List (String × Nat)),
      ¬ p.1.toList.head? = some '/') ∧
    processLowerMember [("a/b", 0), ("c", 1)] 2 ".wh..wh..opq" =
      Except.ok [("a/b", 0), ("c", 1)] :=
  ⟨by decide, C10_root_opaque_noop [("a/b", 0), ("c", 1)] 2 (by decide)⟩

/-- The xattrs of the fixture file whose cached checksum deliberately
disagrees with its content. -/
def fxCacheXattrs : List (String × String) :=
  [("user.checksum.sha256", "bogus")]

/-- The candidate header built for the cached-checksum fixture file: the
PAX checksum header carries the cache value verbatim. -/
def fxC9info : TarInfo :=
  { name := "./a.txt", type := TType.reg, uid := 0, gid := 0, mode := 420,
    mtime := 5, size := 2, linkname := "",
    pax_headers := [("freedesktopsdk.checksum.sha256", "bogus"),
                    ("SCHILY.xattr.user.checksum.sha256", "bogus")] }

/-- Claim C9 — checksum cache trust: when a regular upper file carries a
non-empty `user.checksum.sha256` xattr with value `v`, the checksum the
builder computes for it — the value `processFile` threads both into the
emitted PAX header and into the elision comparison of lines 157-186 — is
`v` itself, for every content whatsoever (so the file is never read or
hashed), and the built candidate header carries `v` as its PAX checksum. -/
theorem C9_xattr_cache_trusted (ctx : Ctx) (relDir nm : String) (m : Meta)
    (ino : Nat) (nl : Bool) (xs : List (String × String))
    (content : List Nat) (inodes : List (Nat × String)) (tinfo : TarInfo)
    (checksum : String) (inodes1 : List (Nat × String)) (v : String)
    (hv : xattr_sha256 xs = some v) (hne : ¬ v = "")
    (hbuild : buildUpperFile ctx relDir nm (FSNode.file m ino nl xs content)
      inodes = Except.ok (tinfo, checksum, inodes1))
    (hreg : tinfo.type = TType.reg) :
    checksum = v ∧
    dictGet tinfo.pax_headers PAX_HEADER_SHA256 = some v := by
  have h := buildUpperFile_file_ok ctx relDir nm m ino nl xs content inodes
    tinfo checksum inodes1 hbuild
  have hcs : upperChecksum xs content = v := by
    unfold upperChecksum
    rw [hv]
    exact if_neg hne
  refine ⟨h.1.trans hcs, ?_⟩
  rw [h.2 hreg, h.1, hcs]

/-- Witness for C9: the cache value `"bogus"` is used although it is not
the content's SHA-256. -/
theorem C9_xattr_cache_trusted_witness :
    xattr_sha256 fxCacheXattrs = some "bogus" ∧
    ¬ ("bogus" : String) = "" ∧
    ¬ ("bogus" = sha256Hex [104, 105]) ∧
    ("bogus" = "bogus" ∧
      dictGet fxC9info.pax_headers PAX_HEADER_SHA256 = some "bogus") :=
  ⟨rfl, by decide, by decide,
    C9_xattr_cache_trusted ⟨[], [], [], none⟩ "." "a.txt" fxMetaFile 0 false
      fxCacheXattrs [104, 105] [] fxC9info "bogus" [] "bogus" rfl (by decide)
      rfl (by decide)⟩

/-- A lower tar whose `./a.txt` entry matches `fxUpper`'s file on stat and
xattrs and stores the correct content checksum. -/
def fxMatchInfo : TarInfo :=
  { name := "./a.txt", type := TType.reg, uid := 0, gid := 0, mode := 420,
    mtime := 5, size := 2, linkname := "",
    pax_headers := [("freedesktopsdk.checksum.sha256", "sha256:[104, 105]")] }

/-- The matching lower tar. -/
def fxLowerMatch : Layer := [⟨fxMatchInfo, [104, 105]⟩]

/-- A lower tar whose `./a.txt` entry matches `fxUpper`'s file on stat,
xattrs and content, but whose stored checksum header lies (`"00"` is not
the content's SHA-256). -/
def fxLieInfo : TarInfo :=
  { name := "./a.txt", type := TType.reg, uid := 0, gid := 0, mode := 420,
    mtime := 5, size := 2, linkname := "",
    pax_headers := [("freedesktopsdk.checksum.sha256", "00")] }

/-- The lying-header lower tar; its member's content equals the upper's. -/
def fxLowerLie : Layer := [⟨fxLieInfo, [104, 105]⟩]

/-- The candidate header the builder constructs for `fxUpper`'s file. -/
def fxC1info : TarInfo :=
  { name := "./a.txt", type := TType.reg, uid := 0, gid := 0, mode := 420,
    mtime := 5, size := 2, linkname := "",
    pax_headers := [("freedesktopsdk.checksum.sha256", "sha256:[104, 105]")] }

/-- Claim C1 (amended) — unchanged-file elision: if the upper candidate
entry is a regular file whose relative path is in `lower_files`, all six
stat fields and the `SCHILY.xattr.*` sets agree with the lower entry, the
lower entry carries a non-empty checksum PAX header `w`, and the upper's
computed checksum equals `w`, then `create_layer`'s per-file step emits no
entry for that path: it skips, leaving the run alive and pruning the inode
cache of the arcname. -/
theorem C1_elision_of_unchanged_file (ctx : Ctx) (relDir nm : String)
    (node : FSNode) (st : RunState) (tinfo : TarInfo) (checksum : String)
    (inodes1 : List (Nat × String)) (idx : Nat) (lower : TarInfo)
    (w : String)
    (herr : st.err = none)
    (hbuild : buildUpperFile ctx relDir nm node st.inodes =
      Except.ok (tinfo, checksum, inodes1))
    (hreg : tinfo.type = TType.reg)
    (hin : dictGet ctx.lf (joinPath relDir nm) = some idx)
    (hmem : getmember ((ctx.lowers.get? idx).getD []) (joinPath relDir nm) =
      some lower)
    (heqt : tinfo.type = lower.type) (hequ : tinfo.uid = lower.uid)
    (heqg : tinfo.gid = lower.gid) (heqm : tinfo.mode = lower.mode)
    (heqmt : tinfo.mtime = lower.mtime) (heqs : tinfo.size = lower.size)
    (heqx : attr_set tinfo.pax_headers = attr_set lower.pax_headers)
    (hw : dictGet lower.pax_headers PAX_HEADER_SHA256 = some w)
    (hwne : ¬ w = "") (hcw : checksum = w) :
    (processFile ctx relDir nm node st).entries = st.entries ∧
    (processFile ctx relDir nm node st).err = none ∧
    (processFile ctx relDir nm node st).inodes =
      inodes1.filter (fun p => decide (p.2 ≠ tinfo.name)) := by
  have hiss : st.err.isSome = false := by
    rw [herr]
    rfl
  unfold processFile
  rw [hiss, if_neg Bool.false_ne_true, hbuild]
  dsimp only
  unfold processFileRest
  rw [hin]
  dsimp only
  rw [hmem]
  dsimp only
  have hsame : (decide (tinfo.type = lower.type) &&
      decide (tinfo.uid = lower.uid) && decide (tinfo.gid = lower.gid) &&
      decide (tinfo.mode = lower.mode) &&
      decide (tinfo.mtime = lower.mtime) &&
      decide (tinfo.size = lower.size) &&
      decide (attr_set tinfo.pax_headers =
        attr_set lower.pax_headers)) = true := by
    simp [heqt, hequ, heqg, heqm, heqmt, heqs, heqx]
  rw [if_pos hsame, if_pos hreg]
  have hlc : lowerChecksum ((ctx.lowers.get? idx).getD []) lower =
      Except.ok w := by
    unfold lowerChecksum
    rw [hw]
    dsimp only
    rw [if_neg hwne]
  rw [hlc]
  dsimp only
  rw [if_pos hcw]
  exact ⟨rfl, herr, rfl⟩

/-- Witness for the amended C1 at a fully matching concrete pair: the file
entry is not emitted. -/
theorem C1_elision_of_unchanged_file_witness :
    (processFile ⟨[fxLowerMatch], [("./a.txt", 0)], [(".", ["a.txt"])], none⟩
        "." "a.txt" (FSNode.file fxMetaFile 0 false [] [104, 105])
        ⟨[], [], none⟩).entries = [] ∧
    (processFile ⟨[fxLowerMatch], [("./a.txt", 0)], [(".", ["a.txt"])], none⟩
        "." "a.txt" (FSNode.file fxMetaFile 0 false [] [104, 105])
        ⟨[], [], none⟩).err = none := by
  have h := C1_elision_of_unchanged_file
    ⟨[fxLowerMatch], [("./a.txt", 0)], [(".", ["a.txt"])], none⟩
    "." "a.txt" (FSNode.file fxMetaFile 0 false [] [104, 105])
    ⟨[], [], none⟩ fxC1info "sha256:[104, 105]" [] 0 fxMatchInfo
    "sha256:[104, 105]" rfl rfl rfl rfl rfl (by decide) (by decide)
    (by decide) (by decide) (by decide) (by decide) (by decide) rfl
    (by decide) rfl
  exact ⟨h.1, h.2.1⟩

/-- Claim C1, as stated, is false: on (`fxUpper`, `fxLowerLie`) the path
`./a.txt` is present in both the upper and the folded lower view, the upper
candidate entry and the lower entry agree on type/uid/gid/mode/mtime/size
and on the `SCHILY.xattr.*` sets, and the contents — hence their SHA-256
digests — are identical, yet `create_layer` emits an entry for the path
(the code compares against the lower's stored PAX header, which lies). -/
theorem C1_lying_lower_header_emits :
    fxUpper = FSNode.dir fxMetaDir
      [("a.txt", FSNode.file fxMetaFile 0 false [] [104, 105])] ∧
    fxLowerLie = [⟨fxLieInfo, [104, 105]⟩] ∧
    analyze_lowers [fxLowerLie] =
      Except.ok ([("./a.txt", 0)], [(".", ["a.txt"])]) ∧
    file_sha256 [104, 105] = file_sha256 [104, 105] ∧
    fxC1info.type = fxLieInfo.type ∧ fxC1info.uid = fxLieInfo.uid ∧
    fxC1info.gid = fxLieInfo.gid ∧ fxC1info.mode = fxLieInfo.mode ∧
    fxC1info.mtime = fxLieInfo.mtime ∧ fxC1info.size = fxLieInfo.size ∧
    attr_set fxC1info.pax_headers = attr_set fxLieInfo.pax_headers ∧
    (create_layer fxUpper [fxLowerLie] none).err = none ∧
    (create_layer fxUpper [fxLowerLie] none).entries.getLast? =
      some ⟨fxC1info, [104, 105]⟩ ∧
    (create_layer fxUpper [fxLowerLie] none).entries.map
      (fun e => e.info.name) = [".", "./a.txt"] := by
  have h := create_layer_flat fxMetaDir fxKids [fxLowerLie] none
    [("./a.txt", 0)] [(".", ["a.txt"])] rfl rfl
  have hu : fxUpper = FSNode.dir fxMetaDir fxKids := rfl
  refine ⟨rfl, rfl, rfl, rfl, by decide, by decide, by decide, by decide,
    by decide, by decide, by decide, ?_, ?_, ?_⟩
  · rw [hu, h]
    decide
  · rw [hu, h]
    decide
  · rw [hu, h]
    decide

/-- An upper tree with two hard-linked regular files `a` and `b` (same
inode 1, `st_nlink > 1`, same content). -/
def fxUpperHL : FSNode :=
  FSNode.dir fxMetaDir
    [("a", FSNode.file fxMetaFile 1 true [] [104]),
     ("b", FSNode.file fxMetaFile 1 true [] [104])]

/-- The children of `fxUpperHL`. -/
def fxKidsHL : List (String × FSNode) :=
  [("a", FSNode.file fxMetaFile 1 true [] [104]),
   ("b", FSNode.file fxMetaFile 1 true [] [104])]

/-- A lower tar whose `./b` entry is a hard link with stat fields and xattr
sets identical to the upper's candidate link header. -/
def fxLnkInfo : TarInfo :=
  { name := "./b", type := TType.lnk, uid := 0, gid := 0, mode := 420,
    mtime := 5, size := 0, linkname := "./a", pax_headers := [] }

/-- The lower tar holding the matching hard-link entry. -/
def fxLowerLnk : Layer := [⟨fxLnkInfo, []⟩]

/-- The candidate header the builder constructs for the second link `b`
once `a` occupies the inode cache. -/
def fxC5info : TarInfo :=
  { name := "./b", type := TType.lnk, uid := 0, gid := 0, mode := 420,
    mtime := 5, size := 0, linkname := "./a", pax_headers := [] }

/-- Claim C5 (amended) — a hard-link candidate entry whose path is in
`lower_files` with all six stat fields and the `SCHILY.xattr.*` sets equal
to the lower entry's is *not* skipped: the matched branch is a `pass` that
falls through to `addfile`, so the per-file step appends the entry to the
output. -/
theorem C5_matched_hard_link_is_emitted (ctx : Ctx) (relDir nm : String)
    (node : FSNode) (st : RunState) (tinfo : TarInfo) (checksum : String)
    (inodes1 : List (Nat × String)) (idx : Nat) (lower : TarInfo)
    (herr : st.err = none)
    (hbuild : buildUpperFile ctx relDir nm node st.inodes =
      Except.ok (tinfo, checksum, inodes1))
    (hlnk : tinfo.type = TType.lnk)
    (hin : dictGet ctx.lf (joinPath relDir nm) = some idx)
    (hmem : getmember ((ctx.lowers.get? idx).getD []) (joinPath relDir nm) =
      some lower)
    (heqt : tinfo.type = lower.type) (hequ : tinfo.uid = lower.uid)
    (heqg : tinfo.gid = lower.gid) (heqm : tinfo.mode = lower.mode)
    (heqmt : tinfo.mtime = lower.mtime) (heqs : tinfo.size = lower.size)
    (heqx : attr_set tinfo.pax_headers = attr_set lower.pax_headers) :
    (processFile ctx relDir nm node st).entries =
      st.entries ++ [⟨tinfo, []⟩] ∧
    (processFile ctx relDir nm node st).err = none := by
  have hiss : st.err.isSome = false := by
    rw [herr]
    rfl
  have hnreg : ¬ tinfo.type = TType.reg := by
    rw [hlnk]
    intro hc
    cases hc
  unfold processFile
  rw [hiss, if_neg Bool.false_ne_true, hbuild]
  dsimp only
  unfold processFileRest
  rw [hin]
  dsimp only
  rw [hmem]
  dsimp only
  have hsame : (decide (tinfo.type = lower.type) &&
      decide (tinfo.uid = lower.uid) && decide (tinfo.gid = lower.gid) &&
      decide (tinfo.mode = lower.mode) &&
      decide (tinfo.mtime = lower.mtime) &&
      decide (tinfo.size = lower.size) &&
      decide (attr_set tinfo.pax_headers =
        attr_set lower.pax_headers)) = true := by
    simp [heqt, hequ, heqg, heqm, heqmt, heqs, heqx]
  rw [if_pos hsame, if_neg hnreg, if_pos hlnk, if_neg hnreg]
  exact ⟨rfl, herr⟩

/-- Witness for the amended C5 at the concrete hard-link pair: the link
entry is appended. -/
theorem C5_matched_hard_link_is_emitted_witness :
    (processFile ⟨[fxLowerLnk], [("./b", 0)], [(".", ["b"])], none⟩ "." "b"
        (FSNode.file fxMetaFile 1 true [] [104])
        ⟨[], [(1, "./a")], none⟩).entries = [⟨fxC5info, []⟩] := by
  have h := C5_matched_hard_link_is_emitted
    ⟨[fxLowerLnk], [("./b", 0)], [(".", ["b"])], none⟩ "." "b"
    (FSNode.file fxMetaFile 1 true [] [104]) ⟨[], [(1, "./a")], none⟩
    fxC5info "sha256:[104]" [(1, "./a")] 0 fxLnkInfo rfl rfl rfl rfl rfl
    (by decide) (by decide) (by decide) (by decide) (by decide) (by decide)
    (by decide)
  simpa using h.1

/-- Claim C5, as stated, is false: on (`fxUpperHL`, `fxLowerLnk`) the upper
entry for `./b` is of hard-link type, its path is in `lower_files`, and
every compared field and the `SCHILY.xattr.*` sets agree with the lower
entry, yet `create_layer` writes a tar entry for that path. -/
theorem C5_matched_hard_link_counterexample :
    analyze_lowers [fxLowerLnk] =
      Except.ok ([("./b", 0)], [(".", ["b"])]) ∧
    fxC5info.type = TType.lnk ∧
    fxC5info.type = fxLnkInfo.type ∧ fxC5info.uid = fxLnkInfo.uid ∧
    fxC5info.gid = fxLnkInfo.gid ∧ fxC5info.mode = fxLnkInfo.mode ∧
    fxC5info.mtime = fxLnkInfo.mtime ∧ fxC5info.size = fxLnkInfo.size ∧
    attr_set fxC5info.pax_headers = attr_set fxLnkInfo.pax_headers ∧
    (create_layer fxUpperHL [fxLowerLnk] none).err = none ∧
    (create_layer fxUpperHL [fxLowerLnk] none).entries.getLast? =
      some ⟨fxC5info, []⟩ ∧
    (create_layer fxUpperHL [fxLowerLnk] none).entries.map
      (fun e => e.info.name) = [".", "./a", "./b"] := by
  have h := create_layer_flat fxMetaDir fxKidsHL [fxLowerLnk] none
    [("./b", 0)] [(".", ["b"])] rfl rfl
  have hu : fxUpperHL = FSNode.dir fxMetaDir fxKidsHL := rfl
  refine ⟨rfl, rfl, rfl, rfl, rfl, rfl, rfl, rfl, by decide, ?_, ?_, ?_⟩
  · rw [hu, h]
    decide
  · rw [hu, h]
    decide
  · rw [hu, h]
    decide

/-- Measure of a cons stack. -/
theorem stackMeasure_cons (x : DirTask) (xs : List DirTask) :
    stackMeasure (x :: xs) = (1 + sizeNL x.children) + stackMeasure xs := by
  simp [stackMeasure, taskW]

/-- The heart of the traversal-order argument: running the stack machine on
`s ++ l.reverse` (so the elements of `l` pop in order) equals first
descending depth-first through `l` and then continuing with `s`. -/
theorem stackRun_append_reverse (ctx : Ctx) :
    ∀ (n : Nat) (s l : List DirTask) (st : RunState),
      stackMeasure s + stackMeasure l ≤ n →
      stackRun ctx (s ++ l.reverse) st = stackRun ctx s (dfsList ctx l st) := by
  intro n
  induction n using Nat.strong_induction_on with
  | _ n ih =>
    intro s l st hle
    cases l with
    | nil =>
      rw [dfsList_nil]
      simp
    | cons x xs =>
      have hrev : (x :: xs).reverse = xs.reverse ++ [x] := by simp
      rw [hrev, ← List.append_assoc, stackRun_step]
      have hm1 : stackMeasure (s ++ xs.reverse) =
          stackMeasure s + stackMeasure xs := by
        rw [stackMeasure_append, stackMeasure_reverse]
      have hm2 := stackMeasure_dirTasks x.rel x.children
      have hm3 := stackMeasure_cons x xs
      have hpos : 1 ≤ stackMeasure (x :: xs) := by
        rw [hm3]
        omega
      have hn1 : n - 1 < n := by omega
      have h1 := ih (n - 1) hn1 (s ++ xs.reverse)
        (dirTasks x.rel x.children) (processDir ctx x st) (by omega)
      rw [h1]
      have h2 := ih (n - 1) hn1 s xs (dfsNode ctx x st) (by omega)
      have hdfs : dfsList ctx (dirTasks x.rel x.children)
          (processDir ctx x st) = dfsNode ctx x st := rfl
      rw [hdfs, h2, dfsList_cons]
      rfl

/-- `create_layer` computes the depth-first descent. -/
theorem create_layer_eq_dfs (upper : FSNode) (lowers : List Layer)
    (epoch : Option String) :
    create_layer upper lowers epoch = dfsCreate upper lowers epoch := by
  unfold create_layer dfsCreate
  cases ha : analyze_lowers lowers with
  | error e => rfl
  | ok lfldc =>
    cases upper with
    | dir m cs =>
      dsimp only
      have h := stackRun_append_reverse ⟨lowers, lfldc.1, lfldc.2, epoch⟩
        (stackMeasure [] + stackMeasure [⟨".", m, cs⟩]) []
        [(⟨".", m, cs⟩ : DirTask)] ⟨[], [], none⟩ (le_refl _)
      have hrev : ([(⟨".", m, cs⟩ : DirTask)]).reverse =
          [(⟨".", m, cs⟩ : DirTask)] := rfl
      rw [hrev] at h
      have hnil : ([] : List DirTask) ++ [(⟨".", m, cs⟩ : DirTask)] =
          [(⟨".", m, cs⟩ : DirTask)] := rfl
      rw [hnil] at h
      rw [h, stackRun_nil, dfsList_cons, dfsList_nil]
      rfl
    | file m ino nl xs c => rfl
    | sym m t => rfl
    | oth m => rfl

/-- `charListLe` is total. -/
theorem charListLe_total (a : List Char) :
    ∀ b, charListLe a b = true ∨ charListLe b a = true := by
  induction a with
  | nil =>
    intro b
    left
    rfl
  | cons x xs ih =>
    intro b
    cases b with
    | nil =>
      right
      rfl
    | cons y ys =>
      by_cases h1 : x < y
      · left
        unfold charListLe
        rw [if_pos h1]
      · by_cases h2 : y < x
        · right
          unfold charListLe
          rw [if_pos h2]
        · rcases ih ys with h | h
          · left
            unfold charListLe
            rw [if_neg h1, if_neg h2]
            exact h
          · right
            unfold charListLe
            rw [if_neg h2, if_neg h1]
            exact h

/-- `charListLe` is transitive. -/
theorem charListLe_trans (a : List Char) :
    ∀ b c, charListLe a b = true → charListLe b c = true →
      charListLe a c = true := by
  induction a with
  | nil =>
    intro b c _ _
    rfl
  | cons x xs ih =>
    intro b c hab hbc
    cases b with
    | nil => cases hab
    | cons y ys =>
      cases c with
      | nil => cases hbc
      | cons z zs =>
        unfold charListLe at hab hbc ⊢
        by_cases h1 : x < y
        · rw [if_pos h1] at hab
          by_cases h2 : y < z
          · rw [if_pos (lt_trans h1 h2)]
          · rw [if_neg h2] at hbc
            by_cases h3 : z < y
            · rw [if_pos h3] at hbc
              cases hbc
            · have hyz : y = z := le_antisymm (not_lt.mp h3) (not_lt.mp h2)
              have hxz : x < z := by
                rw [← hyz]
                exact h1
              rw [if_pos hxz]
        · rw [if_neg h1] at hab
          by_cases h1a : y < x
          · rw [if_pos h1a] at hab
            cases hab
          · rw [if_neg h1a] at hab
            have hxy : x = y := le_antisymm (not_lt.mp h1a) (not_lt.mp h1)
            by_cases h2 : y < z
            · have hxz : x < z := by
                rw [hxy]
                exact h2
              rw [if_pos hxz]
            · rw [if_neg h2] at hbc
              by_cases h3 : z < y
              · rw [if_pos h3] at hbc
                cases hbc
              · have hxz : ¬ x < z := by
                  rw [hxy]
                  exact h2
                have hzx : ¬ z < x := by
                  rw [hxy]
                  exact h3
                rw [if_neg h3] at hbc
                rw [if_neg hxz, if_neg hzx]
                exact ih ys zs hab hbc

/-- `charListLe` is antisymmetric. -/
theorem charListLe_antisymm (a : List Char) :
    ∀ b, charListLe a b = true → charListLe b a = true → a = b := by
  induction a with
  | nil =>
    intro b _ hba
    cases b with
    | nil => rfl
    | cons y ys => cases hba
  | cons x xs ih =>
    intro b hab hba
    cases b with
    | nil => cases hab
    | cons y ys =>
      unfold charListLe at hab hba
      by_cases h1 : x < y
      · rw [if_pos h1] at hab
        rw [if_neg (lt_asymm h1), if_pos h1] at hba
        cases hba
      · by_cases h2 : y < x
        · rw [if_neg h1, if_pos h2] at hab
          cases hab
        · rw [if_neg h1, if_neg h2] at hab
          rw [if_neg h2, if_neg h1] at hba
          have hxy : x = y := le_antisymm (not_lt.mp h2) (not_lt.mp h1)
          rw [hxy, ih ys hab hba]

/-- `strLe` is total. -/
theorem strLe_total (a b : String) : strLe a b = true ∨ strLe b a = true :=
  charListLe_total a.toList b.toList

/-- `strLe` is transitive. -/
theorem strLe_trans (a b c : String) (hab : strLe a b = true)
    (hbc : strLe b c = true) : strLe a c = true :=
  charListLe_trans a.toList b.toList c.toList hab hbc

/-- `strLe` is antisymmetric. -/
theorem strLe_antisymm (a b : String) (hab : strLe a b = true)
    (hba : strLe b a = true) : a = b := by
  have h := charListLe_antisymm a.toList b.toList hab hba
  have h2 : a.toList = a.data := rfl
  have h3 : b.toList = b.data := rfl
  rw [h2, h3] at h
  cases a
  cases b
  exact congrArg String.mk h

/-- Claim C8 — output order: the stack traversal of `create_layer` (pop
last, push subdirectories in reverse sorted order) computes exactly the
recursive depth-first descent `dfsCreate` in which each directory's header
(followed by its whiteouts and its files) precedes its subdirectory
subtrees and subdirectories are visited in ascending order; and the two
per-directory sorts — the non-directory children processed by the loop of
line 140 and the subdirectory tasks pushed at lines 128-129 — are both
ascending in Python's lexicographic string order. -/
theorem C8_depth_first_sorted_order :
    (∀ (upper : FSNode) (lowers : List Layer) (epoch : Option String),
      create_layer upper lowers epoch = dfsCreate upper lowers epoch) ∧
    (∀ cs : List (String × FSNode),
      ((cs.filterMap (fun p => if isDirNode p.2 then none else some p)
        ).insertionSort (fun a b => strLe a.1 b.1 = true)).Pairwise
        (fun a b => strLe a.1 b.1 = true)) ∧
    (∀ cs : List (String × FSNode),
      ((cs.filterMap
          (fun p =>
            match p.2 with
            | FSNode.dir m' cs' => some (p.1, m', cs')
            | _ => none)).insertionSort
        (fun a b => strLe a.1 b.1 = true)).Pairwise
        (fun a b => strLe a.1 b.1 = true)) := by
  refine ⟨create_layer_eq_dfs, ?_, ?_⟩
  · intro cs
    haveI ht : IsTotal (String × FSNode)
        (fun a b => strLe a.1 b.1 = true) := ⟨fun a b => strLe_total a.1 b.1⟩
    haveI htr : IsTrans (String × FSNode)
        (fun a b => strLe a.1 b.1 = true) :=
      ⟨fun a b c => strLe_trans a.1 b.1 c.1⟩
    exact List.sorted_insertionSort _ _
  · intro cs
    haveI ht : IsTotal (String × Meta × List (String × FSNode))
        (fun a b => strLe a.1 b.1 = true) := ⟨fun a b => strLe_total a.1 b.1⟩
    haveI htr : IsTrans (String × Meta × List (String × FSNode))
        (fun a b => strLe a.1 b.1 = true) :=
      ⟨fun a b c => strLe_trans a.1 b.1 c.1⟩
    exact List.sorted_insertionSort _ _

/-! ## Path decomposition lemmas -/

/-- A slash-free character list has no split. -/
theorem splitLastSlash_eq_none (cs : List Char) (h : ¬ '/' ∈ cs) :
    splitLastSlash cs = none := by
  induction cs with
  | nil => rfl
  | cons c rest ih =>
    have hc : ¬ c = '/' := fun hc => h (hc ▸ List.mem_cons_self c rest)
    have hr : ¬ '/' ∈ rest := fun hr => h (List.mem_cons_of_mem c hr)
    unfold splitLastSlash
    rw [ih hr]
    dsimp only
    rw [if_neg hc]

/-- Conversely, a list with no split is slash-free. -/
theorem not_mem_of_splitLastSlash_eq_none (cs : List Char)
    (h : splitLastSlash cs = none) : ¬ '/' ∈ cs := by
  induction cs with
  | nil =>
    intro hm
    cases hm
  | cons c rest ih =>
    intro hm
    unfold splitLastSlash at h
    cases hr : splitLastSlash rest with
    | some p =>
      rw [hr] at h
      cases h
    | none =>
      rw [hr] at h
      dsimp only at h
      by_cases hc : c = '/'
      · rw [if_pos hc] at h
        cases h
      · rcases List.mem_cons.mp hm with h1 | h1
        · exact hc h1.symm
        · exact ih hr h1

/-- Splitting an appended slash-free suffix: the suffix lands wholly in the
tail. -/
theorem splitLastSlash_append_noslash (ds : List Char) (hds : ¬ '/' ∈ ds) :
    ∀ cs : List Char,
      splitLastSlash (cs ++ ds) =
        match splitLastSlash cs with
        | some p => some (p.1, p.2 ++ ds)
        | none => none := by
  intro cs
  induction cs with
  | nil =>
    rw [List.nil_append, splitLastSlash_eq_none ds hds]
    rfl
  | cons c rest ih =>
    show splitLastSlash (c :: (rest ++ ds)) = _
    unfold splitLastSlash
    rw [ih]
    cases hr : splitLastSlash rest with
    | some p => rfl
    | none =>
      dsimp only
      by_cases hc : c = '/'
      · rw [if_pos hc, if_pos hc]
      · rw [if_neg hc, if_neg hc]

/-- A list ending in a slash splits into itself and the empty tail. -/
theorem splitLastSlash_getLast_slash (cs : List Char) :
    ∀ h : cs.getLast? = some '/', splitLastSlash cs = some (cs, []) := by
  induction cs with
  | nil =>
    intro h
    cases h
  | cons c rest ih =>
    intro h
    cases rest with
    | nil =>
      have hc : c = '/' := by
        have := h
        simp [List.getLast?] at this
        exact this
      unfold splitLastSlash
      rw [hc]
      rfl
    | cons d ds =>
      have hr : (d :: ds).getLast? = some '/' := by
        rw [← h]
        rfl
      unfold splitLastSlash
      rw [ih hr]

/-- The tail produced by a split carries no slash. -/
theorem splitLastSlash_tail_noslash (cs : List Char) :
    ∀ h t, splitLastSlash cs = some (h, t) → ¬ '/' ∈ t := by
  induction cs with
  | nil =>
    intro h t hs
    cases hs
  | cons c rest ih =>
    intro h t hs
    unfold splitLastSlash at hs
    cases hr : splitLastSlash rest with
    | some p =>
      rw [hr] at hs
      dsimp only at hs
      cases hs
      exact ih p.1 p.2 (by rw [hr])
    | none =>
      rw [hr] at hs
      dsimp only at hs
      by_cases hc : c = '/'
      · rw [if_pos hc] at hs
        cases hs
        exact not_mem_of_splitLastSlash_eq_none rest hr
      · rw [if_neg hc] at hs
        cases hs

/-- Rebuilding a string from its characters. -/
theorem strEta (s : String) : String.mk s.toList = s := by
  cases s
  rfl

/-- Basenames produced by `splitPath` carry no slash. -/
theorem splitPath_basename_noslash (p : String) :
    ¬ '/' ∈ (splitPath p).2.toList := by
  unfold splitPath
  cases hs : splitLastSlash p.toList with
  | none =>
    dsimp only
    exact not_mem_of_splitLastSlash_eq_none p.toList hs
  | some pr =>
    dsimp only
    exact splitLastSlash_tail_noslash p.toList pr.1 pr.2 (by rw [hs])

/-- The basename of `join(rel, w)` is `w` itself whenever `w` is slash-free,
nonempty and does not begin with a slash. -/
theorem splitPath_joinPath_noslash (rel w : String)
    (hw : ¬ '/' ∈ w.toList) (hh : ¬ w.toList.head? = some '/') :
    (splitPath (joinPath rel w)).2 = w := by
  unfold joinPath
  rw [if_neg hh]
  by_cases h0 : rel = "" ∨ rel.toList.getLast? = some '/'
  · rw [if_pos h0]
    rcases h0 with h0 | h0
    · subst h0
      have he : ("" ++ w : String) = w := by
        have : ("" : String).data = [] := rfl
        cases w
        rfl
      rw [he]
      unfold splitPath
      rw [splitLastSlash_eq_none w.toList hw]
    · have htl : (rel ++ w).toList = rel.toList ++ w.toList := by
        have := String.data_append rel w
        exact this
      unfold splitPath
      rw [htl, splitLastSlash_append_noslash w.toList hw rel.toList,
        splitLastSlash_getLast_slash rel.toList h0]
      dsimp only
      exact strEta w
  · rw [if_neg h0]
    have htl : (rel ++ "/" ++ w).toList = (rel ++ "/").toList ++ w.toList := by
      have := String.data_append (rel ++ "/") w
      exact this
    have hlast : (rel ++ "/").toList.getLast? = some '/' := by
      have h2 : (rel ++ "/").toList = rel.toList ++ ['/'] := by
        have := String.data_append rel "/"
        exact this
      rw [h2, List.getLast?_concat]
    unfold splitPath
    rw [htl, splitLastSlash_append_noslash w.toList hw (rel ++ "/").toList,
      splitLastSlash_getLast_slash (rel ++ "/").toList hlast]
    dsimp only
    exact strEta w

/-! ## Step characterizations of the emitters -/

/-- Membership after a dict assignment. -/
theorem dictSet_mem {κ α : Type} [DecidableEq κ] (d : List (κ × α)) (k : κ)
    (v : α) (pr : κ × α) (h : pr ∈ dictSet d k v) : pr ∈ d ∨ pr = (k, v) := by
  unfold dictSet at h
  by_cases hany : d.any (fun p => decide (p.1 = k))
  · rw [if_pos hany] at h
    rcases List.mem_map.mp h with ⟨q, hq, hqe⟩
    by_cases hk : q.1 = k
    · rw [if_pos hk] at hqe
      right
      exact hqe.symm
    · rw [if_neg hk] at hqe
      left
      exact hqe ▸ hq
  · rw [if_neg hany] at h
    rcases List.mem_append.mp h with h1 | h1
    · left
      exact h1
    · right
      simpa using h1

/-- A successful dict lookup points at a member of the list. -/
theorem dictGet_mem {κ α : Type} [DecidableEq κ] (d : List (κ × α)) (k : κ)
    (v : α) (h : dictGet d k = some v) : ∃ k', (k', v) ∈ d := by
  unfold dictGet at h
  cases hf : d.find? (fun p => decide (p.1 = k)) with
  | none =>
    rw [hf] at h
    cases h
  | some pr =>
    rw [hf] at h
    refine ⟨pr.1, ?_⟩
    have hm := List.mem_of_find?_eq_some hf
    have hv : pr.2 = v := by
      simpa using h
    rw [← hv]
    exact hm

/-- Every basename stored in `lower_dir_contents` is slash-free. -/
theorem buildDirContents_noslash (lf : List (String × Nat)) :
    ∀ pr ∈ buildDirContents lf, ∀ b ∈ pr.2, ¬ '/' ∈ b.toList := by
  unfold buildDirContents
  suffices h : ∀ (l : List (String × Nat)) (d0 : List (String × List String)),
      (∀ pr ∈ d0, ∀ b ∈ pr.2, ¬ '/' ∈ b.toList) →
      ∀ pr ∈ l.foldl
        (fun ldc p =>
          match dictGet ldc (splitPath p.1).1 with
          | none => ldc ++ [((splitPath p.1).1, [(splitPath p.1).2])]
          | some l2 => dictSet ldc (splitPath p.1).1 (l2 ++ [(splitPath p.1).2]))
        d0, ∀ b ∈ pr.2, ¬ '/' ∈ b.toList by
    intro pr hpr
    refine h lf [] (by intro pr2 hpr2; cases hpr2) pr ?_
    convert hpr using 2
  intro l
  induction l with
  | nil =>
    intro d0 h0 pr hpr
    exact h0 pr hpr
  | cons p rest ih =>
    intro d0 h0 pr hpr
    rw [List.foldl_cons] at hpr
    refine ih _ ?_ pr hpr
    intro pr2 hpr2 b hb
    cases hg : dictGet d0 (splitPath p.1).1 with
    | none =>
      rw [hg] at hpr2
      dsimp only at hpr2
      rcases List.mem_append.mp hpr2 with h1 | h1
      · exact h0 pr2 h1 b hb
      · have he : pr2 = ((splitPath p.1).1, [(splitPath p.1).2]) := by
          simpa using h1
        rw [he] at hb
        have hbb : b = (splitPath p.1).2 := by
          simpa using hb
        rw [hbb]
        exact splitPath_basename_noslash p.1
    | some l2 =>
      rw [hg] at hpr2
      dsimp only at hpr2
      rcases dictSet_mem d0 (splitPath p.1).1 (l2 ++ [(splitPath p.1).2])
          pr2 hpr2 with h1 | h1
      · exact h0 pr2 h1 b hb
      · rw [h1] at hb
        rcases List.mem_append.mp hb with h2 | h2
        · rcases dictGet_mem d0 (splitPath p.1).1 l2 hg with ⟨k', hk'⟩
          exact h0 (k', l2) hk' b h2
        · have hbb : b = (splitPath p.1).2 := by
            simpa using h2
          rw [hbb]
          exact splitPath_basename_noslash p.1

/-- What one whiteout step can do to the entry list: nothing, or append one
whiteout dummy entry. -/
theorem whiteoutStep_entries_cases (ctx : Ctx) (rel : String)
    (dirNames fileNames : List String) (ob : String) (s : RunState) :
    (whiteoutStep ctx rel dirNames fileNames ob s).entries = s.entries ∨
    ∃ oi, (whiteoutStep ctx rel dirNames fileNames ob s).entries =
      s.entries ++ [⟨dummy_tarinfo (joinPath rel (".wh." ++ ob)) oi, []⟩] := by
  unfold whiteoutStep
  by_cases h1 : s.err.isSome = true
  · rw [if_pos h1]
    left
    rfl
  · rw [if_neg h1]
    by_cases h2 : ob ∈ fileNames ∨ ob ∈ dirNames
    · rw [if_pos h2]
      left
      rfl
    · rw [if_neg h2]
      dsimp only
      cases hg : dictGet ctx.lf (joinPath rel ob) with
      | none =>
        left
        rfl
      | some idx =>
        dsimp only
        cases hm : getmember ((ctx.lowers.get? idx).getD []) (joinPath rel ob)
            with
        | none =>
          left
          rfl
        | some oi =>
          right
          exact ⟨oi, rfl⟩

/-- What the decision step (lines 157-200) can do to the entry list:
nothing (skip or raise), or append the candidate entry — with its content
body exactly when it is a regular file. -/
theorem processFileRest_entries_cases (ctx : Ctx) (rel : String)
    (node : FSNode) (tinfo : TarInfo) (checksum : String)
    (inodes1 : List (Nat × String)) (st : RunState) :
    (processFileRest ctx rel node tinfo checksum inodes1 st).entries =
      st.entries ∨
    (processFileRest ctx rel node tinfo checksum inodes1 st).entries =
      st.entries ++
        [⟨tinfo, if tinfo.type = TType.reg then contentOf node else []⟩] := by
  have hemit : (if tinfo.type = TType.reg then
      emitEntry { st with inodes := inodes1 } tinfo (contentOf node)
    else emitEntry { st with inodes := inodes1 } tinfo []).entries =
      st.entries ++
        [⟨tinfo, if tinfo.type = TType.reg then contentOf node else []⟩] := by
    by_cases hr : tinfo.type = TType.reg
    · rw [if_pos hr, if_pos hr]
      rfl
    · rw [if_neg hr, if_neg hr]
      rfl
  unfold processFileRest
  cases hq : dictGet ctx.lf rel with
  | none =>
    right
    exact hemit
  | some idx =>
    dsimp only
    cases hm : getmember ((ctx.lowers.get? idx).getD []) rel with
    | none =>
      left
      rfl
    | some lower_found =>
      dsimp only
      by_cases hs : (decide (tinfo.type = lower_found.type) &&
          decide (tinfo.uid = lower_found.uid) &&
          decide (tinfo.gid = lower_found.gid) &&
          decide (tinfo.mode = lower_found.mode) &&
          decide (tinfo.mtime = lower_found.mtime) &&
          decide (tinfo.size = lower_found.size) &&
          decide (attr_set tinfo.pax_headers =
            attr_set lower_found.pax_headers)) = true
      · rw [if_pos hs]
        by_cases hr : tinfo.type = TType.reg
        · rw [if_pos hr]
          cases hlc : lowerChecksum ((ctx.lowers.get? idx).getD [])
              lower_found with
          | error e =>
            left
            rfl
          | ok other =>
            dsimp only
            by_cases hc : checksum = other
            · rw [if_pos hc]
              left
              rfl
            · rw [if_neg hc]
              right
              exact hemit
        · rw [if_neg hr]
          by_cases hl : tinfo.type = TType.lnk
          · rw [if_pos hl]
            right
            exact hemit
          · rw [if_neg hl]
            by_cases hsy : tinfo.type = TType.symT
            · rw [if_pos hsy]
              cases hrl : readlinkOf node with
              | none =>
                left
                rfl
              | some tgt =>
                dsimp only
                by_cases hln : tinfo.linkname = tgt
                · rw [if_pos hln]
                  left
                  rfl
                · rw [if_neg hln]
                  right
                  exact hemit
            · rw [if_neg hsy]
              left
              rfl
      · rw [if_neg hs]
        right
        exact hemit

/-- With the epoch set to a parseable integer, every candidate header that
`buildUpperFile` returns carries that integer as its mtime. -/
theorem buildUpperFile_epoch_mtime (ctx : Ctx) (relDir nm : String)
    (node : FSNode) (inodes : List (Nat × String)) (tinfo : TarInfo)
    (checksum : String) (inodes1 : List (Nat × String)) (sE : String)
    (E : Int) (hep : ctx.epoch = some sE) (hsi : pyInt sE = some E)
    (hbuild : buildUpperFile ctx relDir nm node inodes =
      Except.ok (tinfo, checksum, inodes1)) :
    tinfo.mtime = E := by
  unfold buildUpperFile at hbuild
  rw [hep] at hbuild
  dsimp only at hbuild
  rw [hsi] at hbuild
  dsimp only at hbuild
  have hinj := Except.ok.inj hbuild
  have := congrArg (fun q => q.1.mtime) hinj
  simpa using this.symm

/-- What one file step can do to the entry list: nothing, or append the
candidate entry built by `buildUpperFile`. -/
theorem processFile_entries_cases (ctx : Ctx) (relDir nm : String)
    (node : FSNode) (st : RunState) :
    (processFile ctx relDir nm node st).entries = st.entries ∨
    ∃ tinfo checksum inodes1,
      buildUpperFile ctx relDir nm node st.inodes =
        Except.ok (tinfo, checksum, inodes1) ∧
      (processFile ctx relDir nm node st).entries =
        st.entries ++
          [⟨tinfo, if tinfo.type = TType.reg then contentOf node else []⟩] := by
  unfold processFile
  by_cases h1 : st.err.isSome = true
  · rw [if_pos h1]
    left
    rfl
  · rw [if_neg h1]
    cases hb : buildUpperFile ctx relDir nm node st.inodes with
    | error e =>
      left
      rfl
    | ok r =>
      dsimp only
      rcases processFileRest_entries_cases ctx (joinPath relDir nm) node r.1
          r.2.1 r.2.2 st with h | h
      · left
        exact h
      · right
        exact ⟨r.1, r.2.1, r.2.2, rfl, h⟩

/-- Folding a step that preserves an entry invariant preserves it. -/
theorem foldl_preserve_entries {β : Type} (P : Entry → Prop)
    (f : RunState → β → RunState)
    (hf : ∀ s b, (∀ e ∈ s.entries, P e) → ∀ e ∈ (f s b).entries, P e) :
    ∀ (l : List β) (s : RunState), (∀ e ∈ s.entries, P e) →
      ∀ e ∈ (l.foldl f s).entries, P e := by
  intro l
  induction l with
  | nil =>
    intro s hs
    exact hs
  | cons b rest ih =>
    intro s hs
    rw [List.foldl_cons]
    exact ih (f s b) (hf s b hs)

/-- Invariant propagation along the depth-first descent: if one directory
step preserves an entry predicate `P` for tasks satisfying `Q`, and `Q` is
inherited by subdirectory tasks, then the whole descent preserves `P`. -/
theorem dfsList_entries_invariant (ctx : Ctx) (P : Entry → Prop)
    (Q : DirTask → Prop)
    (hstep : ∀ t st, Q t → (∀ e ∈ st.entries, P e) →
      ∀ e ∈ (processDir ctx t st).entries, P e)
    (hhered : ∀ t t', Q t → t' ∈ dirTasks t.rel t.children → Q t') :
    ∀ (n : Nat) (l : List DirTask) (st : RunState), stackMeasure l ≤ n →
      (∀ t ∈ l, Q t) → (∀ e ∈ st.entries, P e) →
      ∀ e ∈ (dfsList ctx l st).entries, P e := by
  intro n
  induction n using Nat.strong_induction_on with
  | _ n ih =>
    intro l st hn hQ hP
    cases l with
    | nil =>
      rw [dfsList_nil]
      exact hP
    | cons x xs =>
      rw [dfsList_cons]
      have hQx : Q x := hQ x (List.mem_cons_self x xs)
      have hm2 := stackMeasure_dirTasks x.rel x.children
      have hm3 := stackMeasure_cons x xs
      have hn1 : n - 1 < n := by omega
      have hinner := ih (n - 1) hn1 (dirTasks x.rel x.children)
        (processDir ctx x st) (by omega)
        (fun t' ht' => hhered x t' hQx ht') (hstep x st hQx hP)
      exact ih (n - 1) hn1 xs _ (by omega)
        (fun t ht => hQ t (List.mem_cons_of_mem x ht)) hinner

/-- The same invariant for a full `create_layer` run. -/
theorem create_layer_entries_invariant (m : Meta)
    (cs : List (String × FSNode)) (lowers : List Layer)
    (epoch : Option String) (lf : List (String × Nat))
    (ldc : List (String × List String)) (P : Entry → Prop)
    (Q : DirTask → Prop)
    (ha : analyze_lowers lowers = Except.ok (lf, ldc))
    (hstep : ∀ t st, Q t → (∀ e ∈ st.entries, P e) →
      ∀ e ∈ (processDir ⟨lowers, lf, ldc, epoch⟩ t st).entries, P e)
    (hhered : ∀ t t', Q t → t' ∈ dirTasks t.rel t.children → Q t')
    (hQ0 : Q ⟨".", m, cs⟩) :
    ∀ e ∈ (create_layer (FSNode.dir m cs) lowers epoch).entries, P e := by
  rw [create_layer_eq_dfs]
  unfold dfsCreate
  rw [ha]
  dsimp only
  have h : dfsNode ⟨lowers, lf, ldc, epoch⟩ ⟨".", m, cs⟩ ⟨[], [], none⟩ =
      dfsList ⟨lowers, lf, ldc, epoch⟩ [⟨".", m, cs⟩] ⟨[], [], none⟩ := by
    rw [dfsList_cons, dfsList_nil]
    rfl
  rw [h]
  refine dfsList_entries_invariant ⟨lowers, lf, ldc, epoch⟩ P Q hstep hhered
    (stackMeasure [⟨".", m, cs⟩]) [⟨".", m, cs⟩] ⟨[], [], none⟩ (le_refl _)
    ?_ ?_
  · intro t ht
    have he : t = ⟨".", m, cs⟩ := by
      simpa using ht
    rw [he]
    exact hQ0
  · intro e he
    cases he

/-- Fold preservation where the step property is only needed for members of
the folded list. -/
theorem foldl_preserve_entries_mem {β : Type} (P : Entry → Prop)
    (f : RunState → β → RunState) :
    ∀ (l : List β),
      (∀ b ∈ l, ∀ s, (∀ e ∈ s.entries, P e) → ∀ e ∈ (f s b).entries, P e) →
      ∀ s : RunState, (∀ e ∈ s.entries, P e) →
        ∀ e ∈ (l.foldl f s).entries, P e := by
  intro l
  induction l with
  | nil =>
    intro _ s hs
    exact hs
  | cons b rest ih =>
    intro hf s hs
    rw [List.foldl_cons]
    exact ih (fun b2 hb2 => hf b2 (List.mem_cons_of_mem b hb2)) (f s b)
      (hf b (List.mem_cons_self b rest) s hs)

/-- `epochDir` with a non-empty parseable epoch stamps the integer. -/
theorem epochDir_ok (s : String) (E : Int) (d : TarInfo) (hse : ¬ s = "")
    (hsi : pyInt s = some E) :
    epochDir (some s) d = Except.ok { d with mtime := E } := by
  unfold epochDir
  dsimp only
  rw [if_neg hse, hsi]

/-- The second component of a successful `analyze_lowers` is derived from
the first. -/
theorem analyze_lowers_ok_ldc (lowers : List Layer)
    (lf : List (String × Nat)) (ldc : List (String × List String))
    (ha : analyze_lowers lowers = Except.ok (lf, ldc)) :
    ldc = buildDirContents lf := by
  unfold analyze_lowers at ha
  cases hf : lowers.enum.foldl
      (fun eacc il =>
        il.2.foldl
          (fun e m => e.bind (fun a => processLowerMember a il.1 m.info.name))
          eacc)
      (Except.ok []) with
  | error e =>
    rw [hf] at ha
    cases ha
  | ok lf0 =>
    rw [hf] at ha
    have hinj := Except.ok.inj ha
    have h1 := congrArg Prod.fst hinj
    have h2 := congrArg Prod.snd hinj
    dsimp only at h1 h2
    rw [← h2, ← h1]

/-- The whiteout name `join(rel, ".wh." + ob)` has a basename starting with
`.wh.` whenever `ob` is slash-free. -/
theorem wh_basename (rel ob : String) (hob : ¬ '/' ∈ ob.toList) :
    (splitPath (joinPath rel (".wh." ++ ob))).2.toList.take 4 =
      ['.', 'w', 'h', '.'] := by
  have hdata : (".wh." ++ ob).toList = ['.', 'w', 'h', '.'] ++ ob.toList := by
    have := String.data_append ".wh." ob
    exact this
  have hw : ¬ '/' ∈ (".wh." ++ ob).toList := by
    rw [hdata]
    intro hm
    rcases List.mem_append.mp hm with h1 | h1
    · exact absurd h1 (by decide)
    · exact hob h1
  have hh : ¬ (".wh." ++ ob).toList.head? = some '/' := by
    rw [hdata]
    intro hc
    cases hc
  rw [splitPath_joinPath_noslash rel (".wh." ++ ob) hw hh, hdata,
    List.take_append_of_le_length (by decide)]
  rfl

/-- The per-directory step of the epoch-mtime invariant: with the epoch set
to a non-empty parseable integer, every entry a directory iteration emits
either carries the epoch as mtime or is a whiteout dummy (basename
starting `.wh.`). -/
theorem processDir_epoch_step (lowers : List Layer)
    (lf : List (String × Nat)) (ldc : List (String × List String))
    (s : String) (E : Int) (hse : ¬ s = "") (hsi : pyInt s = some E)
    (hldc : ∀ pr ∈ ldc, ∀ b ∈ pr.2, ¬ '/' ∈ b.toList)
    (t : DirTask) (st : RunState)
    (hP : ∀ e ∈ st.entries, e.info.mtime = E ∨
      (splitPath e.info.name).2.toList.take 4 = ['.', 'w', 'h', '.']) :
    ∀ e ∈ (processDir ⟨lowers, lf, ldc, some s⟩ t st).entries,
      e.info.mtime = E ∨
      (splitPath e.info.name).2.toList.take 4 = ['.', 'w', 'h', '.'] := by
  unfold processDir
  by_cases herr : st.err.isSome = true
  · rw [if_pos herr]
    exact hP
  · rw [if_neg herr]
    have hep : (⟨lowers, lf, ldc, some s⟩ : Ctx).epoch = some s := rfl
    rw [hep, epochDir_ok s E (gettarinfoDir t.rel t.meta) hse hsi]
    dsimp only
    have hP1 : ∀ e ∈ (emitEntry st
        { gettarinfoDir t.rel t.meta with mtime := E } []).entries,
        e.info.mtime = E ∨
        (splitPath e.info.name).2.toList.take 4 = ['.', 'w', 'h', '.'] := by
      intro e he
      rcases List.mem_append.mp he with h1 | h1
      · exact hP e h1
      · have he2 : e = ⟨{ gettarinfoDir t.rel t.meta with mtime := E }, []⟩ := by
          simpa using h1
        left
        rw [he2]
    have hP2 : ∀ e ∈ (List.foldl
        (fun s2 ob => whiteoutStep ⟨lowers, lf, ldc, some s⟩ t.rel
          (t.children.filterMap
            (fun p => if isDirNode p.2 then some p.1 else none))
          (t.children.filterMap
            (fun p => if isDirNode p.2 then none else some p.1)) ob s2)
        (emitEntry st { gettarinfoDir t.rel t.meta with mtime := E } [])
        ((dictGet ldc t.rel).getD [])).entries,
        e.info.mtime = E ∨
        (splitPath e.info.name).2.toList.take 4 = ['.', 'w', 'h', '.'] := by
      refine foldl_preserve_entries_mem _ _ ((dictGet ldc t.rel).getD [])
        ?_ _ hP1
      intro ob hob s2 hs2 e he
      rcases whiteoutStep_entries_cases ⟨lowers, lf, ldc, some s⟩ t.rel _ _
          ob s2 with hcase | ⟨oi, hcase⟩
      · rw [hcase] at he
        exact hs2 e he
      · rw [hcase] at he
        rcases List.mem_append.mp he with h1 | h1
        · exact hs2 e h1
        · have he2 : e = ⟨dummy_tarinfo (joinPath t.rel (".wh." ++ ob)) oi,
              []⟩ := by
            simpa using h1
          right
          rw [he2]
          have hobns : ¬ '/' ∈ ob.toList := by
            cases hg : dictGet ldc t.rel with
            | none =>
              rw [hg] at hob
              cases hob
            | some bs =>
              rw [hg] at hob
              rcases dictGet_mem ldc t.rel bs hg with ⟨k', hk'⟩
              exact hldc (k', bs) hk' ob hob
          exact wh_basename t.rel ob hobns
    refine foldl_preserve_entries_mem _ _ _ ?_ _ hP2
    intro p hp s2 hs2 e he
    rcases processFile_entries_cases ⟨lowers, lf, ldc, some s⟩ t.rel p.1 p.2
        s2 with hcase | ⟨tinfo, checksum, inodes1, hbuild, hcase⟩
    · rw [hcase] at he
      exact hs2 e he
    · rw [hcase] at he
      rcases List.mem_append.mp he with h1 | h1
      · exact hs2 e h1
      · have he2 : e = ⟨tinfo,
            if tinfo.type = TType.reg then contentOf p.2 else []⟩ := by
          simpa using h1
        left
        rw [he2]
        exact buildUpperFile_epoch_mtime ⟨lowers, lf, ldc, some s⟩ t.rel p.1
          p.2 s2.inodes tinfo checksum inodes1 s E rfl hsi hbuild

/-- Claim C3 (amended) — with `SOURCE_DATE_EPOCH` set to a (non-empty,
parseable) integer `E`, every entry `create_layer` writes either has
`mtime = E` (directory headers and file entries) or is a whiteout dummy
(basename beginning `.wh.`), which keeps the lower entry's mtime instead:
`dummy_tarinfo` copies the lower's mtime and lines 131-138 apply no epoch
override to it. -/
theorem C3_epoch_override_except_whiteouts (m : Meta)
    (cs : List (String × FSNode)) (lowers : List Layer)
    (lf : List (String × Nat)) (ldc : List (String × List String))
    (s : String) (E : Int)
    (ha : analyze_lowers lowers = Except.ok (lf, ldc))
    (hse : ¬ s = "") (hsi : pyInt s = some E) :
    ∀ e ∈ (create_layer (FSNode.dir m cs) lowers (some s)).entries,
      e.info.mtime = E ∨
      (splitPath e.info.name).2.toList.take 4 = ['.', 'w', 'h', '.'] := by
  have hldc : ∀ pr ∈ ldc, ∀ b ∈ pr.2, ¬ '/' ∈ b.toList := by
    rw [analyze_lowers_ok_ldc lowers lf ldc ha]
    exact buildDirContents_noslash lf
  exact create_layer_entries_invariant m cs lowers (some s) lf ldc _
    (fun _ => True) ha
    (fun t st _ hP => processDir_epoch_step lowers lf ldc s E hse hsi hldc
      t st hP)
    (fun _ _ _ _ => trivial) trivial

/-- The root directory header of the single-file fixture run with epoch
`"0"`. -/
def fxRootHdr0 : Entry :=
  ⟨{ name := ".", type := TType.dirT, uid := 0, gid := 0, mode := 16877,
     mtime := 0, size := 0, linkname := "", pax_headers := [] }, []⟩

/-- Witness for the amended C3: in the single-file run with epoch `"0"`,
the root directory header satisfies the invariant. -/
theorem C3_epoch_override_except_whiteouts_witness :
    analyze_lowers ([] : List Layer) = Except.ok ([], []) ∧
    ¬ ("0" : String) = "" ∧ pyInt "0" = some 0 ∧
    (fxRootHdr0.info.mtime = 0 ∨
      (splitPath fxRootHdr0.info.name).2.toList.take 4 =
        ['.', 'w', 'h', '.']) := by
  refine ⟨rfl, by decide, rfl, ?_⟩
  refine C3_epoch_override_except_whiteouts fxMetaDir fxKids [] [] [] "0" 0
    rfl (by decide) rfl fxRootHdr0 ?_
  have h := create_layer_flat fxMetaDir fxKids [] (some "0") [] [] rfl rfl
  rw [h]
  decide

/-- Claim C3, as stated, is false: with `SOURCE_DATE_EPOCH=7`, the whiteout
dummy emitted for the vanished lower file `a.txt` keeps the lower entry's
mtime 5 instead of 7. -/
theorem C3_whiteout_keeps_lower_mtime :
    ¬ ("7" : String) = "" ∧ pyInt "7" = some 7 ∧
    (create_layer (FSNode.dir fxMetaDir []) [fxLowerMatch]
        (some "7")).entries.map (fun e => (e.info.name, e.info.mtime)) =
      [(".", 7), ("./.wh.a.txt", 5)] := by
  refine ⟨by decide, rfl, ?_⟩
  have h := create_layer_flat fxMetaDir [] [fxLowerMatch] (some "7")
    [("./a.txt", 0)] [(".", ["a.txt"])] rfl rfl
  rw [h]
  decide

mutual

/-- No file in the subtree carries a non-empty `user.checksum.sha256`
xattr cache. -/
def noCacheNode : FSNode → Bool
  | .dir _ cs => noCacheKids cs
  | .file _ _ _ xs _ =>
    match dictGet xs "user.checksum.sha256" with
    | none => true
    | some v => decide (v = "")
  | .sym _ _ => true
  | .oth _ => true

/-- `noCacheNode` over a children list. -/
def noCacheKids : List (String × FSNode) → Bool
  | [] => true
  | p :: rest => noCacheNode p.2 && noCacheKids rest

end

/-- Membership version of `noCacheKids`. -/
theorem noCacheKids_mem (cs : List (String × FSNode))
    (h : noCacheKids cs = true) :
    ∀ p ∈ cs, noCacheNode p.2 = true := by
  induction cs with
  | nil =>
    intro p hp
    cases hp
  | cons q rest ih =>
    rw [noCacheKids, Bool.and_eq_true] at h
    intro p hp
    rcases List.mem_cons.mp hp with h1 | h1
    · rw [h1]
      exact h.1
    · exact ih h.2 p h1

/-- A cache-free file's checksum is the content hash. -/
theorem upperChecksum_noCache (m : Meta) (ino : Nat) (nl : Bool)
    (xs : List (String × String)) (c : List Nat)
    (h : noCacheNode (FSNode.file m ino nl xs c) = true) :
    upperChecksum xs c = file_sha256 c := by
  rw [noCacheNode] at h
  unfold upperChecksum xattr_sha256
  cases hg : dictGet xs "user.checksum.sha256" with
  | none => rfl
  | some v =>
    rw [hg] at h
    dsimp only
    have hv : v = "" := of_decide_eq_true h
    rw [if_pos hv]

/-- The candidate header's type is the one `gettarinfo` assigned. -/
theorem buildUpperFile_type (ctx : Ctx) (relDir nm : String) (node : FSNode)
    (inodes : List (Nat × String)) (tinfo : TarInfo) (checksum : String)
    (inodes1 : List (Nat × String))
    (hbuild : buildUpperFile ctx relDir nm node inodes =
      Except.ok (tinfo, checksum, inodes1)) :
    tinfo.type =
      (gettarinfoFile (joinPath relDir nm) node inodes).1.type := by
  have hpax : ∀ (t : TarInfo) (xs2 : List (String × String)) (cs2 : String),
      (buildFilePax t xs2 cs2).type = t.type := by
    intro t xs2 cs2
    unfold buildFilePax
    suffices h : ∀ (l : List (String × String)) (t0 : TarInfo),
        (l.foldl (fun a p => setPax a (PAX_HEADER_XATTR ++ p.1) p.2)
          t0).type = t0.type by
      rw [h]
      rfl
    intro l
    induction l with
    | nil =>
      intro t0
      rfl
    | cons p ps ih =>
      intro t0
      rw [List.foldl_cons, ih]
      rfl
  unfold buildUpperFile at hbuild
  cases hep : ctx.epoch with
  | none =>
    rw [hep] at hbuild
    dsimp only at hbuild
    have hinj := Except.ok.inj hbuild
    have h1 := congrArg (fun q => q.1.type) hinj
    dsimp only at h1
    rw [← h1]
    by_cases hr : ({ (gettarinfoFile (joinPath relDir nm) node inodes).1 with
        mode := S_IMODE
          (gettarinfoFile (joinPath relDir nm) node inodes).1.mode } :
        TarInfo).type = TType.reg
    · rw [if_pos hr, hpax]
    · rw [if_neg hr]
  | some sE =>
    rw [hep] at hbuild
    dsimp only at hbuild
    cases hsi : pyInt sE with
    | none =>
      rw [hsi] at hbuild
      cases hbuild
    | some e =>
      rw [hsi] at hbuild
      dsimp only at hbuild
      have hinj := Except.ok.inj hbuild
      have h1 := congrArg (fun q => q.1.type) hinj
      dsimp only at h1
      rw [← h1]
      by_cases hr : ({ (gettarinfoFile (joinPath relDir nm) node
          inodes).1 with
          mode := S_IMODE
            (gettarinfoFile (joinPath relDir nm) node inodes).1.mode } :
          TarInfo).type = TType.reg
      · rw [if_pos hr]
        show (buildFilePax _ _ _).type = _
        rw [hpax]
      · rw [if_neg hr]

/-- Subdirectory tasks inherit freedom from checksum caches. -/
theorem dirTasks_noCache (t : DirTask) (t' : DirTask)
    (hQ : noCacheKids t.children = true)
    (ht' : t' ∈ dirTasks t.rel t.children) :
    noCacheKids t'.children = true := by
  unfold dirTasks at ht'
  rcases List.mem_map.mp ht' with ⟨x, hx, hxe⟩
  have hx2 : x ∈ t.children.filterMap
      (fun p =>
        match p.2 with
        | FSNode.dir m' cs' => some (p.1, m', cs')
        | _ => none) :=
    (List.perm_insertionSort _ _).mem_iff.mp hx
  rcases List.mem_filterMap.mp hx2 with ⟨p, hp, hpe⟩
  have hnc := noCacheKids_mem t.children hQ p hp
  cases hnode : p.2 with
  | dir m2 cs2 =>
    rw [hnode] at hpe
    dsimp only at hpe
    have hxx : x = (p.1, m2, cs2) := by
      cases hpe
      rfl
    rw [hnode, noCacheNode] at hnc
    rw [← hxe, hxx]
    exact hnc
  | file m2 i2 n2 x2 c2 =>
    rw [hnode] at hpe
    cases hpe
  | sym m2 t2 =>
    rw [hnode] at hpe
    cases hpe
  | oth m2 =>
    rw [hnode] at hpe
    cases hpe

/-- `epochDir` never changes the entry type. -/
theorem epochDir_type (ep : Option String) (d r : TarInfo)
    (h : epochDir ep d = Except.ok r) : r.type = d.type := by
  unfold epochDir at h
  cases ep with
  | none =>
    have := Except.ok.inj h
    rw [← this]
  | some s =>
    dsimp only at h
    by_cases hse : s = ""
    · rw [if_pos hse] at h
      have := Except.ok.inj h
      rw [← this]
    · rw [if_neg hse] at h
      cases hsi : pyInt s with
      | none =>
        rw [hsi] at h
        cases h
      | some e =>
        rw [hsi] at h
        have := Except.ok.inj h
        rw [← this]

/-- The per-directory step of the PAX-checksum invariant: in a cache-free
subtree, every regular-file entry a directory iteration emits either
carries the checksum header equal to the hash of its emitted body, or is a
header-less whiteout dummy. -/
theorem processDir_pax_step (lowers : List Layer) (lf : List (String × Nat))
    (ldc : List (String × List String)) (epoch : Option String)
    (t : DirTask) (st : RunState) (hQ : noCacheKids t.children = true)
    (hP : ∀ e ∈ st.entries, e.info.type = TType.reg →
      (dictGet e.info.pax_headers PAX_HEADER_SHA256 =
        some (sha256Hex e.content) ∨ e.info.pax_headers = [])) :
    ∀ e ∈ (processDir ⟨lowers, lf, ldc, epoch⟩ t st).entries,
      e.info.type = TType.reg →
      (dictGet e.info.pax_headers PAX_HEADER_SHA256 =
        some (sha256Hex e.content) ∨ e.info.pax_headers = []) := by
  unfold processDir
  by_cases herr : st.err.isSome = true
  · rw [if_pos herr]
    exact hP
  · rw [if_neg herr]
    cases hed : epochDir (⟨lowers, lf, ldc, epoch⟩ : Ctx).epoch
        (gettarinfoDir t.rel t.meta) with
    | error e2 =>
      dsimp only
      exact hP
    | ok d1 =>
      dsimp only
      have hd1 : d1.type = TType.dirT :=
        epochDir_type _ _ _ hed
      have hP1 : ∀ e ∈ (emitEntry st d1 []).entries,
          e.info.type = TType.reg →
          (dictGet e.info.pax_headers PAX_HEADER_SHA256 =
            some (sha256Hex e.content) ∨ e.info.pax_headers = []) := by
        intro e he hreg
        rcases List.mem_append.mp he with h1 | h1
        · exact hP e h1 hreg
        · have he2 : e = ⟨d1, []⟩ := by
            simpa using h1
          rw [he2] at hreg
          rw [hd1] at hreg
          cases hreg
      have hP2 : ∀ e ∈ (List.foldl
          (fun s2 ob => whiteoutStep ⟨lowers, lf, ldc, epoch⟩ t.rel
            (t.children.filterMap
              (fun p => if isDirNode p.2 then some p.1 else none))
            (t.children.filterMap
              (fun p => if isDirNode p.2 then none else some p.1)) ob s2)
          (emitEntry st d1 []) ((dictGet ldc t.rel).getD [])).entries,
          e.info.type = TType.reg →
          (dictGet e.info.pax_headers PAX_HEADER_SHA256 =
            some (sha256Hex e.content) ∨ e.info.pax_headers = []) := by
        refine foldl_preserve_entries _ _ ?_ _ _ hP1
        intro s2 ob hs2 e he
        rcases whiteoutStep_entries_cases ⟨lowers, lf, ldc, epoch⟩ t.rel _ _
            ob s2 with hcase | ⟨oi, hcase⟩
        · rw [hcase] at he
          exact hs2 e he
        · rw [hcase] at he
          intro hreg
          rcases List.mem_append.mp he with h1 | h1
          · exact hs2 e h1 hreg
          · have he2 : e = ⟨dummy_tarinfo (joinPath t.rel (".wh." ++ ob)) oi,
                []⟩ := by
              simpa using h1
            right
            rw [he2]
            rfl
      refine foldl_preserve_entries_mem _ _ _ ?_ _ hP2
      intro p hp s2 hs2 e he
      have hpmem : p ∈ t.children := by
        have hp2 : p ∈ t.children.filterMap
            (fun q => if isDirNode q.2 then none else some q) :=
          (List.perm_insertionSort _ _).mem_iff.mp hp
        rcases List.mem_filterMap.mp hp2 with ⟨q, hq, hqe⟩
        by_cases hd : isDirNode q.2 = true
        · rw [if_pos hd] at hqe
          cases hqe
        · rw [if_neg hd] at hqe
          have : q = p := by
            cases hqe
            rfl
          rw [← this]
          exact hq
      have hnc := noCacheKids_mem t.children hQ p hpmem
      rcases processFile_entries_cases ⟨lowers, lf, ldc, epoch⟩ t.rel p.1 p.2
          s2 with hcase | ⟨tinfo, checksum, inodes1, hbuild, hcase⟩
      · rw [hcase] at he
        exact hs2 e he
      · rw [hcase] at he
        intro hreg
        rcases List.mem_append.mp he with h1 | h1
        · exact hs2 e h1 hreg
        · have he2 : e = ⟨tinfo,
              if tinfo.type = TType.reg then contentOf p.2 else []⟩ := by
            simpa using h1
          rw [he2] at hreg ⊢
          dsimp only at hreg
          cases hnode : p.2 with
          | file m2 i2 n2 x2 c2 =>
            rw [hnode] at hbuild hnc
            have hok := buildUpperFile_file_ok ⟨lowers, lf, ldc, epoch⟩
              t.rel p.1 m2 i2 n2 x2 c2 s2.inodes tinfo checksum inodes1
              hbuild
            left
            dsimp only
            rw [if_pos hreg]
            have hcc : checksum = sha256Hex c2 := by
              rw [hok.1, upperChecksum_noCache m2 i2 n2 x2 c2 hnc]
              rfl
            rw [hok.2 hreg, hcc]
            rfl
          | sym m2 t2 =>
            exfalso
            rw [hnode] at hbuild
            have ht := buildUpperFile_type ⟨lowers, lf, ldc, epoch⟩ t.rel
              p.1 (FSNode.sym m2 t2) s2.inodes tinfo checksum inodes1 hbuild
            have h9 : (gettarinfoFile (joinPath t.rel p.1)
                (FSNode.sym m2 t2) s2.inodes).1.type = TType.symT := rfl
            rw [h9, hreg] at ht
            exact absurd ht (by decide)
          | oth m2 =>
            exfalso
            rw [hnode] at hbuild
            have ht := buildUpperFile_type ⟨lowers, lf, ldc, epoch⟩ t.rel
              p.1 (FSNode.oth m2) s2.inodes tinfo checksum inodes1 hbuild
            have h9 : (gettarinfoFile (joinPath t.rel p.1)
                (FSNode.oth m2) s2.inodes).1.type = TType.oth := rfl
            rw [h9, hreg] at ht
            exact absurd ht (by decide)
          | dir m2 cs2 =>
            exfalso
            rw [hnode] at hbuild
            have ht := buildUpperFile_type ⟨lowers, lf, ldc, epoch⟩ t.rel
              p.1 (FSNode.dir m2 cs2) s2.inodes tinfo checksum inodes1
              hbuild
            have h9 : (gettarinfoFile (joinPath t.rel p.1)
                (FSNode.dir m2 cs2) s2.inodes).1.type = TType.dirT := rfl
            rw [h9, hreg] at ht
            exact absurd ht (by decide)

/-- The single-file upper tree `{a.txt: "hi"}` whose file carries a lying
`user.checksum.sha256` xattr cache value `"bogus"`. -/
def fxKidsCache : List (String × FSNode) :=
  [("a.txt", FSNode.file fxMetaFile 0 false fxCacheXattrs [104, 105])]

/-- Claim C6 (amended) — PAX checksum of emitted bodies: when no upper
file carries a `user.checksum.sha256` xattr cache, every regular-file
entry `create_layer` writes either carries the
`freedesktopsdk.checksum.sha256` PAX header equal to the SHA-256 of the
content body emitted for it, or is a whiteout dummy with no PAX headers
at all. -/
theorem C6_reg_checksum_matches_body (m : Meta)
    (cs : List (String × FSNode)) (lowers : List Layer)
    (epoch : Option String) (lf : List (String × Nat))
    (ldc : List (String × List String))
    (ha : analyze_lowers lowers = Except.ok (lf, ldc))
    (hnc : noCacheKids cs = true) :
    ∀ e ∈ (create_layer (FSNode.dir m cs) lowers epoch).entries,
      e.info.type = TType.reg →
      (dictGet e.info.pax_headers PAX_HEADER_SHA256 =
        some (sha256Hex e.content) ∨ e.info.pax_headers = []) := by
  exact create_layer_entries_invariant m cs lowers epoch lf ldc
    (fun e => e.info.type = TType.reg →
      (dictGet e.info.pax_headers PAX_HEADER_SHA256 =
        some (sha256Hex e.content) ∨ e.info.pax_headers = []))
    (fun t => noCacheKids t.children = true) ha
    (fun t st hQ hP => processDir_pax_step lowers lf ldc epoch t st hQ hP)
    (fun t t2 hQ ht2 => dirTasks_noCache t t2 hQ ht2) hnc

/-- Witness for the amended C6: in the cache-free single-file run, the
emitted file entry carries the checksum header of its body. -/
theorem C6_reg_checksum_matches_body_witness :
    analyze_lowers ([] : List Layer) = Except.ok ([], []) ∧
    noCacheKids fxKids = true ∧
    (fxC1info.type = TType.reg →
      (dictGet fxC1info.pax_headers PAX_HEADER_SHA256 =
        some (sha256Hex [104, 105]) ∨ fxC1info.pax_headers = [])) := by
  refine ⟨rfl, by decide, ?_⟩
  refine C6_reg_checksum_matches_body fxMetaDir fxKids [] none [] [] rfl
    (by decide) ⟨fxC1info, [104, 105]⟩ ?_
  have h := create_layer_flat fxMetaDir fxKids [] none [] [] rfl rfl
  rw [h]
  decide

/-- Claim C6, as stated, is false: a lying `user.checksum.sha256` xattr
cache is copied verbatim into the checksum PAX header of the emitted
regular-file entry, so the header differs from the SHA-256 of the emitted
body. -/
theorem C6_lying_cache_emits_wrong_checksum :
    ((create_layer (FSNode.dir fxMetaDir fxKidsCache) [] none).entries.map
        (fun e => e.info.name) = [".", "./a.txt"]) ∧
    (create_layer (FSNode.dir fxMetaDir fxKidsCache) []
        none).entries.getLast? = some ⟨fxC9info, [104, 105]⟩ ∧
    fxC9info.type = TType.reg ∧
    dictGet fxC9info.pax_headers PAX_HEADER_SHA256 = some "bogus" ∧
    ¬ "bogus" = sha256Hex [104, 105] := by
  have h := create_layer_flat fxMetaDir fxKidsCache [] none [] [] rfl rfl
  rw [h]
  decide

mutual

/-- Equality of upper trees up to the (unordered) order in which
`os.scandir` lists each directory: children names within a directory are
distinct (as on a real filesystem), the children lists of matching
directories are permutations of each other, and matching names carry
equivalent subtrees; non-directory nodes are equal outright.  Two runs of
`create_layer` over the same on-disk tree see scandir listings related
exactly like this. -/
inductive EquivTree : FSNode → FSNode → Prop where
  | file (m : Meta) (ino : Nat) (nl : Bool) (xs : List (String × String))
      (c : List Nat) :
      EquivTree (FSNode.file m ino nl xs c) (FSNode.file m ino nl xs c)
  | sym (m : Meta) (tgt : String) :
      EquivTree (FSNode.sym m tgt) (FSNode.sym m tgt)
  | oth (m : Meta) : EquivTree (FSNode.oth m) (FSNode.oth m)
  | dir (m : Meta) (cs cs3 cs2 : List (String × FSNode))
      (hnd : (cs.map Prod.fst).Nodup) (hperm : cs.Perm cs3)
      (hf : EquivKids cs3 cs2) :
      EquivTree (FSNode.dir m cs) (FSNode.dir m cs2)

/-- Pointwise equivalence of children lists: same names in the same order,
equivalent subtrees. -/
inductive EquivKids :
    List (String × FSNode) → List (String × FSNode) → Prop where
  | nil : EquivKids [] []
  | cons (p q : String × FSNode) (t1 t2 : List (String × FSNode))
      (hname : p.1 = q.1) (ht : EquivTree p.2 q.2) (hrest : EquivKids t1 t2) :
      EquivKids (p :: t1) (q :: t2)

end

/-- `EquivKids` is the pointwise `Forall₂` form. -/
theorem equivKids_forall2 :
    ∀ (l1 l2 : List (String × FSNode)), EquivKids l1 l2 →
      List.Forall₂ (fun p q => p.1 = q.1 ∧ EquivTree p.2 q.2) l1 l2 := by
  intro l1
  induction l1 with
  | nil =>
    intro l2 h
    cases h
    exact List.Forall₂.nil
  | cons a t ih =>
    intro l2 h
    cases h with
    | cons p q t1 t2 hname ht hrest =>
      exact List.Forall₂.cons ⟨hname, ht⟩ (ih _ hrest)

/-- Children lists seen by two scandir passes over the same directory. -/
def KidsRel (cs cs2 : List (String × FSNode)) : Prop :=
  (cs.map Prod.fst).Nodup ∧
  ∃ cs3, cs.Perm cs3 ∧ EquivKids cs3 cs2

/-- Stack tasks produced by two scandir passes over the same directory. -/
def TaskRel (t t2 : DirTask) : Prop :=
  t.rel = t2.rel ∧ t.meta = t2.meta ∧ KidsRel t.children t2.children

/-- Equivalent trees have the same root constructor class. -/
theorem EquivTree.isDir_eq (a b : FSNode) (h : EquivTree a b) :
    isDirNode a = isDirNode b := by
  cases h <;> rfl

/-- Equivalent non-directory nodes are equal. -/
theorem EquivTree.eq_of_ndir (a b : FSNode) (h : EquivTree a b)
    (ha : isDirNode a = false) : a = b := by
  cases h with
  | file m ino nl xs c => rfl
  | sym m tgt => rfl
  | oth m => rfl
  | dir m cs cs3 cs2 hnd hperm hf => exact Bool.noConfusion ha

/-- Inversion of `EquivTree` at a directory. -/
theorem EquivTree.dir_inv (m : Meta) (k : List (String × FSNode)) (b : FSNode)
    (h : EquivTree (FSNode.dir m k) b) :
    ∃ k2, b = FSNode.dir m k2 ∧ KidsRel k k2 := by
  cases h with
  | dir m cs cs3 cs2 hnd hperm hf => exact ⟨cs2, rfl, hnd, cs3, hperm, hf⟩

/-- Every right element of a `Forall₂` has a related left element. -/
theorem forall2_mem_right {α β : Type} {R : α → β → Prop} :
    ∀ {l1 : List α} {l2 : List β}, List.Forall₂ R l1 l2 →
      ∀ q ∈ l2, ∃ p ∈ l1, R p q := by
  intro l1 l2 h
  induction h with
  | nil =>
    intro q hq
    cases hq
  | cons hr hrest ih =>
    intro q hq
    rcases List.mem_cons.mp hq with h1 | h1
    · exact ⟨_, List.mem_cons_self _ _, by rw [h1]; exact hr⟩
    · rcases ih q h1 with ⟨p, hp, hpq⟩
      exact ⟨p, List.mem_cons_of_mem _ hp, hpq⟩

/-- In a list with distinct keys, the key determines the element. -/
theorem nodup_key_inj {β : Type} :
    ∀ (l : List (String × β)), (l.map Prod.fst).Nodup →
      ∀ p ∈ l, ∀ q ∈ l, p.1 = q.1 → p = q := by
  intro l
  induction l with
  | nil =>
    intro _ p hp
    cases hp
  | cons a rest ih =>
    intro hnd p hp q hq hpq
    rw [List.map_cons, List.nodup_cons] at hnd
    rcases List.mem_cons.mp hp with h1 | h1 <;>
      rcases List.mem_cons.mp hq with h2 | h2
    · rw [h1, h2]
    · exfalso
      apply hnd.1
      rw [h1] at hpq
      rw [hpq]
      exact List.mem_map.mpr ⟨q, h2, rfl⟩
    · exfalso
      apply hnd.1
      rw [h2] at hpq
      rw [← hpq]
      exact List.mem_map.mpr ⟨p, h1, rfl⟩
    · exact ih hnd.2 p h1 q h2 hpq

/-- Two keyed lists with the same key sequence and related values at equal
keys are pointwise related. -/
theorem keyed_forall2_of_map_fst {β γ : Type}
    (R : String × β → String × γ → Prop) :
    ∀ (s1 : List (String × β)) (s2 : List (String × γ)),
      s1.map Prod.fst = s2.map Prod.fst →
      (∀ p ∈ s1, ∀ q ∈ s2, p.1 = q.1 → R p q) →
      List.Forall₂ R s1 s2 := by
  intro s1
  induction s1 with
  | nil =>
    intro s2 hk _
    cases s2 with
    | nil => exact List.Forall₂.nil
    | cons b t2 => cases hk
  | cons a t1 ih =>
    intro s2 hk hval
    cases s2 with
    | nil => cases hk
    | cons b t2 =>
      rw [List.map_cons, List.map_cons] at hk
      have hk1 : a.1 = b.1 := by
        have := congrArg (fun l => l.head?) hk
        simpa using this
      have hk2 : t1.map Prod.fst = t2.map Prod.fst := by
        have := congrArg (fun l => l.tail) hk
        simpa using this
      refine List.Forall₂.cons
        (hval a (List.mem_cons_self a t1) b (List.mem_cons_self b t2) hk1)
        (ih t2 hk2 ?_)
      intro p hp q hq hpq
      exact hval p (List.mem_cons_of_mem a hp) q (List.mem_cons_of_mem b hq)
        hpq

/-- Pointwise-equal lists are equal. -/
theorem forall2_eq {α : Type} :
    ∀ {l1 l2 : List α}, List.Forall₂ (fun a b => a = b) l1 l2 → l1 = l2 := by
  intro l1 l2 h
  induction h with
  | nil => rfl
  | cons hr hrest ih => rw [hr, ih]

/-- Sorting two key-permuted keyed lists yields the same key sequence. -/
theorem sorted_keys_eq {β γ : Type} (l1 : List (String × β))
    (l2 : List (String × γ))
    (hk : (l1.map Prod.fst).Perm (l2.map Prod.fst)) :
    ((l1.insertionSort (fun a b => strLe a.1 b.1 = true)).map Prod.fst) =
      ((l2.insertionSort (fun a b => strLe a.1 b.1 = true)).map Prod.fst) := by
  haveI hT1 : IsTotal (String × β) (fun a b => strLe a.1 b.1 = true) :=
    ⟨fun a b => strLe_total a.1 b.1⟩
  haveI hT2 : IsTrans (String × β) (fun a b => strLe a.1 b.1 = true) :=
    ⟨fun a b c hab hbc => strLe_trans a.1 b.1 c.1 hab hbc⟩
  haveI hT3 : IsTotal (String × γ) (fun a b => strLe a.1 b.1 = true) :=
    ⟨fun a b => strLe_total a.1 b.1⟩
  haveI hT4 : IsTrans (String × γ) (fun a b => strLe a.1 b.1 = true) :=
    ⟨fun a b c hab hbc => strLe_trans a.1 b.1 c.1 hab hbc⟩
  haveI hA : IsAntisymm String (fun a b => strLe a b = true) :=
    ⟨fun a b hab hba => strLe_antisymm a b hab hba⟩
  apply List.eq_of_perm_of_sorted (r := fun a b => strLe a b = true)
  · refine (((List.perm_insertionSort _ l1).map Prod.fst).trans hk).trans ?_
    exact ((List.perm_insertionSort _ l2).map Prod.fst).symm
  · exact List.Pairwise.map Prod.fst (fun a b hab => hab)
      (List.sorted_insertionSort _ l1)
  · exact List.Pairwise.map Prod.fst (fun a b hab => hab)
      (List.sorted_insertionSort _ l2)

/-- Matched children produce identical subdirectory-name lists. -/
theorem dirNames_eq_of_forall2 :
    ∀ {l1 l2 : List (String × FSNode)},
      List.Forall₂ (fun p q => p.1 = q.1 ∧ EquivTree p.2 q.2) l1 l2 →
      l1.filterMap (fun p => if isDirNode p.2 then some p.1 else none) =
        l2.filterMap (fun p => if isDirNode p.2 then some p.1 else none) := by
  intro l1 l2 h
  induction h with
  | nil => rfl
  | cons hr hrest ih =>
    rename_i p q t1 t2
    rw [List.filterMap_cons, List.filterMap_cons]
    have hd := EquivTree.isDir_eq p.2 q.2 hr.2
    by_cases h2 : isDirNode q.2 = true
    · have hp2 : isDirNode p.2 = true := by
        rw [hd]
        exact h2
      rw [if_pos hp2, if_pos h2]
      dsimp only
      rw [hr.1, ih]
    · have hp2 : ¬ isDirNode p.2 = true := by
        rw [hd]
        exact h2
      rw [if_neg hp2, if_neg h2]
      dsimp only
      exact ih

/-- Matched children produce identical non-directory-name lists. -/
theorem fileNames_eq_of_forall2 :
    ∀ {l1 l2 : List (String × FSNode)},
      List.Forall₂ (fun p q => p.1 = q.1 ∧ EquivTree p.2 q.2) l1 l2 →
      l1.filterMap (fun p => if isDirNode p.2 then none else some p.1) =
        l2.filterMap (fun p => if isDirNode p.2 then none else some p.1) := by
  intro l1 l2 h
  induction h with
  | nil => rfl
  | cons hr hrest ih =>
    rename_i p q t1 t2
    rw [List.filterMap_cons, List.filterMap_cons]
    have hd := EquivTree.isDir_eq p.2 q.2 hr.2
    by_cases h2 : isDirNode q.2 = true
    · have hp2 : isDirNode p.2 = true := by
        rw [hd]
        exact h2
      rw [if_pos hp2, if_pos h2]
      dsimp only
      exact ih
    · have hp2 : ¬ isDirNode p.2 = true := by
        rw [hd]
        exact h2
      rw [if_neg hp2, if_neg h2]
      dsimp only
      rw [hr.1, ih]

/-- Matched children produce identical non-directory child lists: an
equivalent non-directory subtree is equal. -/
theorem filePairs_eq_of_forall2 :
    ∀ {l1 l2 : List (String × FSNode)},
      List.Forall₂ (fun p q => p.1 = q.1 ∧ EquivTree p.2 q.2) l1 l2 →
      l1.filterMap (fun p => if isDirNode p.2 then none else some p) =
        l2.filterMap (fun p => if isDirNode p.2 then none else some p) := by
  intro l1 l2 h
  induction h with
  | nil => rfl
  | cons hr hrest ih =>
    rename_i p q t1 t2
    rw [List.filterMap_cons, List.filterMap_cons]
    have hd := EquivTree.isDir_eq p.2 q.2 hr.2
    by_cases h2 : isDirNode q.2 = true
    · have hp2 : isDirNode p.2 = true := by
        rw [hd]
        exact h2
      rw [if_pos hp2, if_pos h2]
      dsimp only
      exact ih
    · have hp2 : ¬ isDirNode p.2 = true := by
        rw [hd]
        exact h2
      have heq : p = q := by
        refine Prod.ext hr.1 ?_
        exact EquivTree.eq_of_ndir p.2 q.2 hr.2 (Bool.eq_false_iff.mpr hp2)
      rw [if_neg hp2, if_neg h2]
      dsimp only
      rw [heq, ih]

/-- Matched children produce pointwise-related subdirectory triples. -/
theorem dirPairs_forall2_of_forall2 :
    ∀ {l1 l2 : List (String × FSNode)},
      List.Forall₂ (fun p q => p.1 = q.1 ∧ EquivTree p.2 q.2) l1 l2 →
      List.Forall₂
        (fun x y => x.1 = y.1 ∧ x.2.1 = y.2.1 ∧ KidsRel x.2.2 y.2.2)
        (l1.filterMap (fun p =>
          match p.2 with
          | FSNode.dir m2 cs2 => some (p.1, m2, cs2)
          | _ => none))
        (l2.filterMap (fun p =>
          match p.2 with
          | FSNode.dir m2 cs2 => some (p.1, m2, cs2)
          | _ => none)) := by
  intro l1 l2 h
  induction h with
  | nil => exact List.Forall₂.nil
  | cons hr hrest ih =>
    rename_i p q t1 t2
    rw [List.filterMap_cons, List.filterMap_cons]
    cases hp2 : p.2 with
    | dir m2 k =>
      rcases EquivTree.dir_inv m2 k q.2
          (by rw [← hp2]; exact hr.2) with ⟨k2, hq2, hkr⟩
      rw [hq2]
      dsimp only
      exact List.Forall₂.cons ⟨hr.1, rfl, hkr⟩ ih
    | file m2 i2 n2 x2 c2 =>
      have heq : p.2 = q.2 :=
        EquivTree.eq_of_ndir p.2 q.2 hr.2 (by rw [hp2]; rfl)
      rw [← heq, hp2]
      dsimp only
      exact ih
    | sym m2 tg2 =>
      have heq : p.2 = q.2 :=
        EquivTree.eq_of_ndir p.2 q.2 hr.2 (by rw [hp2]; rfl)
      rw [← heq, hp2]
      dsimp only
      exact ih
    | oth m2 =>
      have heq : p.2 = q.2 :=
        EquivTree.eq_of_ndir p.2 q.2 hr.2 (by rw [hp2]; rfl)
      rw [← heq, hp2]
      dsimp only
      exact ih

/-- The non-directory children keep a subsequence of the directory's key
list. -/
theorem filePairs_keys_sublist (l : List (String × FSNode)) :
    ((l.filterMap (fun p => if isDirNode p.2 then none else some p)).map
      Prod.fst).Sublist (l.map Prod.fst) := by
  induction l with
  | nil => exact List.Sublist.refl _
  | cons a rest ih =>
    rw [List.filterMap_cons, List.map_cons]
    by_cases h2 : isDirNode a.2 = true
    · rw [if_pos h2]
      dsimp only
      exact ih.cons a.1
    · rw [if_neg h2]
      dsimp only
      rw [List.map_cons]
      exact ih.cons₂ a.1

/-- The subdirectory triples keep a subsequence of the directory's key
list. -/
theorem dirPairs_keys_sublist (l : List (String × FSNode)) :
    ((l.filterMap (fun p =>
        match p.2 with
        | FSNode.dir m2 cs2 => some (p.1, m2, cs2)
        | _ => none)).map Prod.fst).Sublist (l.map Prod.fst) := by
  induction l with
  | nil => exact List.Sublist.refl _
  | cons a rest ih =>
    rw [List.filterMap_cons, List.map_cons]
    cases h2 : a.2 with
    | dir m2 k =>
      dsimp only
      rw [List.map_cons]
      exact ih.cons₂ a.1
    | file m2 i2 n2 x2 c2 =>
      dsimp only
      exact ih.cons a.1
    | sym m2 tg2 =>
      dsimp only
      exact ih.cons a.1
    | oth m2 =>
      dsimp only
      exact ih.cons a.1

/-- Folding pointwise-equal step functions gives the same result. -/
theorem foldl_fun_eq {α β : Type} (f g : β → α → β) :
    ∀ (l : List α) (b : β), (∀ a ∈ l, ∀ s, f s a = g s a) →
      List.foldl f b l = List.foldl g b l := by
  intro l
  induction l with
  | nil =>
    intro b _
    rfl
  | cons a t ih =>
    intro b hfg
    rw [List.foldl_cons, List.foldl_cons, hfg a (List.mem_cons_self a t) b]
    exact ih _ (fun x hx s => hfg x (List.mem_cons_of_mem a hx) s)

/-- `whiteoutStep` only tests membership in the name lists, so lists with
the same members give the same step. -/
theorem whiteoutStep_mem_congr (ctx : Ctx) (rel : String)
    (dn dn2 fn fn2 : List String) (ob : String) (s : RunState)
    (hdn : ∀ x : String, x ∈ dn ↔ x ∈ dn2)
    (hfn : ∀ x : String, x ∈ fn ↔ x ∈ fn2) :
    whiteoutStep ctx rel dn fn ob s = whiteoutStep ctx rel dn2 fn2 ob s := by
  unfold whiteoutStep
  by_cases h1 : s.err.isSome = true
  · rw [if_pos h1, if_pos h1]
  · rw [if_neg h1, if_neg h1]
    by_cases h2 : ob ∈ fn ∨ ob ∈ dn
    · rw [if_pos h2, if_pos (Or.imp (hfn ob).mp (hdn ob).mp h2)]
    · rw [if_neg h2,
        if_neg (fun hc => h2 (Or.imp (hfn ob).mpr (hdn ob).mpr hc))]

/-- Sorting two permuted keyed lists with distinct keys gives the same
list. -/
theorem sorted_pairs_eq (l1 l2 : List (String × FSNode))
    (hperm : l1.Perm l2) (hnd : (l1.map Prod.fst).Nodup) :
    l1.insertionSort (fun a b => strLe a.1 b.1 = true) =
      l2.insertionSort (fun a b => strLe a.1 b.1 = true) := by
  have hkeys := sorted_keys_eq l1 l2 (hperm.map Prod.fst)
  refine forall2_eq (keyed_forall2_of_map_fst (fun p q => p = q) _ _ hkeys ?_)
  intro p hp q hq hpq
  have hp1 : p ∈ l1 := (List.perm_insertionSort _ l1).mem_iff.mp hp
  have hq1 : q ∈ l1 :=
    hperm.mem_iff.mpr ((List.perm_insertionSort _ l2).mem_iff.mp hq)
  exact nodup_key_inj l1 hnd p hp1 q hq1 hpq

/-- A key-preserving `Forall₂` gives equal key sequences. -/
theorem forall2_fst_eq {β γ : Type} {R : String × β → String × γ → Prop}
    (hR : ∀ p q, R p q → p.1 = q.1) :
    ∀ {l1 : List (String × β)} {l2 : List (String × γ)},
      List.Forall₂ R l1 l2 → l1.map Prod.fst = l2.map Prod.fst := by
  intro l1 l2 h
  induction h with
  | nil => rfl
  | cons hr hrest ih =>
    rw [List.map_cons, List.map_cons, hR _ _ hr, ih]

/-- Scandir order does not matter for a single `while` iteration: two
tasks for the same directory emit the same entries. -/
theorem processDir_congr (ctx : Ctx) (t t2 : DirTask) (st : RunState)
    (h : TaskRel t t2) : processDir ctx t st = processDir ctx t2 st := by
  obtain ⟨hrel, hmeta, hnd, cs3, hperm, hkids⟩ := h
  have hf := equivKids_forall2 cs3 t2.children hkids
  have hdnp : (t.children.filterMap
      (fun p => if isDirNode p.2 then some p.1 else none)).Perm
      (t2.children.filterMap
        (fun p => if isDirNode p.2 then some p.1 else none)) := by
    rw [← dirNames_eq_of_forall2 hf]
    exact hperm.filterMap _
  have hfnp : (t.children.filterMap
      (fun p => if isDirNode p.2 then none else some p.1)).Perm
      (t2.children.filterMap
        (fun p => if isDirNode p.2 then none else some p.1)) := by
    rw [← fileNames_eq_of_forall2 hf]
    exact hperm.filterMap _
  have hfpp : (t.children.filterMap
      (fun p => if isDirNode p.2 then none else some p)).Perm
      (t2.children.filterMap
        (fun p => if isDirNode p.2 then none else some p)) := by
    rw [← filePairs_eq_of_forall2 hf]
    exact hperm.filterMap _
  have hfpnd : ((t.children.filterMap
      (fun p => if isDirNode p.2 then none else some p)).map
        Prod.fst).Nodup :=
    List.Nodup.sublist (filePairs_keys_sublist t.children) hnd
  have hsorted := sorted_pairs_eq _ _ hfpp hfpnd
  unfold processDir
  by_cases h1 : st.err.isSome = true
  · rw [if_pos h1, if_pos h1]
  · rw [if_neg h1, if_neg h1]
    rw [← hrel, ← hmeta]
    cases hed : epochDir ctx.epoch (gettarinfoDir t.rel t.meta) with
    | error e => rfl
    | ok d1 =>
      dsimp only
      rw [hsorted]
      have hwh := foldl_fun_eq
        (fun s ob => whiteoutStep ctx t.rel
          (t.children.filterMap
            (fun p => if isDirNode p.2 then some p.1 else none))
          (t.children.filterMap
            (fun p => if isDirNode p.2 then none else some p.1)) ob s)
        (fun s ob => whiteoutStep ctx t.rel
          (t2.children.filterMap
            (fun p => if isDirNode p.2 then some p.1 else none))
          (t2.children.filterMap
            (fun p => if isDirNode p.2 then none else some p.1)) ob s)
        ((dictGet ctx.ldc t.rel).getD []) (emitEntry st d1 [])
        (fun ob _ s => whiteoutStep_mem_congr ctx t.rel _ _ _ _ ob s
          (fun x => hdnp.mem_iff) (fun x => hfnp.mem_iff))
      rw [hwh]

/-- Tasks of matched children lists joined under `Forall₂ TaskRel`. -/
theorem forall2_map_taskRel (rel : String) :
    ∀ {l1 l2 : List (String × Meta × List (String × FSNode))},
      List.Forall₂
        (fun x y => x.1 = y.1 ∧ x.2.1 = y.2.1 ∧ KidsRel x.2.2 y.2.2) l1 l2 →
      List.Forall₂ TaskRel
        (l1.map (fun x => (⟨joinPath rel x.1, x.2.1, x.2.2⟩ : DirTask)))
        (l2.map (fun x => (⟨joinPath rel x.1, x.2.1, x.2.2⟩ : DirTask))) := by
  intro l1 l2 h
  induction h with
  | nil => exact List.Forall₂.nil
  | cons hr hrest ih =>
    rw [List.map_cons, List.map_cons]
    exact List.Forall₂.cons ⟨by rw [hr.1], hr.2.1, hr.2.2⟩ ih

/-- Scandir order does not matter for the subdirectory tasks either: the
sorted task lists of two listings of the same directory are pointwise
related. -/
theorem dirTasks_rel_congr (rel : String) (cs cs2 : List (String × FSNode))
    (h : KidsRel cs cs2) :
    List.Forall₂ TaskRel (dirTasks rel cs) (dirTasks rel cs2) := by
  obtain ⟨hnd, cs3, hperm, hkids⟩ := h
  have hf := equivKids_forall2 cs3 cs2 hkids
  have hdp := dirPairs_forall2_of_forall2 hf
  have hpp : (cs.filterMap (fun p =>
      match p.2 with
      | FSNode.dir m2 k2 => some (p.1, m2, k2)
      | _ => none)).Perm (cs3.filterMap (fun p =>
      match p.2 with
      | FSNode.dir m2 k2 => some (p.1, m2, k2)
      | _ => none)) := hperm.filterMap _
  have hknd : ((cs.filterMap (fun p =>
      match p.2 with
      | FSNode.dir m2 k2 => some (p.1, m2, k2)
      | _ => none)).map Prod.fst).Nodup :=
    List.Nodup.sublist (dirPairs_keys_sublist cs) hnd
  have hkeq := sorted_keys_eq
    (cs.filterMap (fun p =>
      match p.2 with
      | FSNode.dir m2 k2 => some (p.1, m2, k2)
      | _ => none))
    (cs2.filterMap (fun p =>
      match p.2 with
      | FSNode.dir m2 k2 => some (p.1, m2, k2)
      | _ => none))
    ((hpp.map Prod.fst).trans
      (by rw [forall2_fst_eq (fun p q hr => hr.1) hdp]))
  have htri := keyed_forall2_of_map_fst
    (fun x y => x.1 = y.1 ∧ x.2.1 = y.2.1 ∧ KidsRel x.2.2 y.2.2)
    _ _ hkeq ?hval
  case hval =>
    intro p hp q hq hpq
    have hq2 := (List.perm_insertionSort _ _).mem_iff.mp hq
    rcases forall2_mem_right hdp q hq2 with ⟨p2, hp2, hr2⟩
    have hp2cs := hpp.mem_iff.mpr hp2
    have hp1 : p ∈ cs.filterMap (fun p =>
        match p.2 with
        | FSNode.dir m2 k2 => some (p.1, m2, k2)
        | _ => none) := (List.perm_insertionSort _ _).mem_iff.mp hp
    have hpe : p = p2 := nodup_key_inj _ hknd p hp1 p2 hp2cs
      (by rw [hpq, hr2.1])
    rw [hpe]
    exact hr2
  unfold dirTasks
  exact forall2_map_taskRel rel htri

/-- Scandir order does not matter for the whole traversal. -/
theorem dfsList_congr (ctx : Ctx) :
    ∀ (n : Nat) (l1 l2 : List DirTask) (st : RunState),
      stackMeasure l1 ≤ n → List.Forall₂ TaskRel l1 l2 →
      dfsList ctx l1 st = dfsList ctx l2 st := by
  intro n
  induction n using Nat.strong_induction_on with
  | _ n ih =>
    intro l1 l2 st hn hf
    cases hf with
    | nil => rfl
    | cons hr hrest =>
      rename_i x y xs ys
      rw [dfsList_cons, dfsList_cons]
      obtain ⟨hrel, hmeta, hkids⟩ := hr
      have hpd : processDir ctx x st = processDir ctx y st :=
        processDir_congr ctx x y st ⟨hrel, hmeta, hkids⟩
      have hdt : List.Forall₂ TaskRel (dirTasks x.rel x.children)
          (dirTasks y.rel y.children) := by
        rw [← hrel]
        exact dirTasks_rel_congr x.rel _ _ hkids
      have hm2 := stackMeasure_dirTasks x.rel x.children
      have hm3 : stackMeasure (x :: xs) = taskW x + stackMeasure xs := by
        simp [stackMeasure]
      have h4 : taskW x = 1 + sizeNL x.children := rfl
      have hin : dfsList ctx (dirTasks x.rel x.children)
            (processDir ctx x st) =
          dfsList ctx (dirTasks y.rel y.children) (processDir ctx y st) := by
        rw [← hpd]
        exact ih (stackMeasure (dirTasks x.rel x.children)) (by omega)
          _ _ _ (le_refl _) hdt
      rw [hin]
      exact ih (stackMeasure xs) (by omega) xs ys _ (le_refl _) hrest

/-- Claim C7 — determinism: `create_layer` is a function of the upper
tree, the lower stack and the epoch alone.  The only run-to-run variation
between two executions on the same inputs is the unordered `os.scandir`
listing order, modelled by `EquivTree`; two runs over scandir-equivalent
views of the upper tree produce identical output streams (entry sequence,
inode cache and error state). -/
theorem C7_determinism_up_to_scandir_order (u1 u2 : FSNode)
    (lowers : List Layer) (epoch : Option String) (h : EquivTree u1 u2) :
    create_layer u1 lowers epoch = create_layer u2 lowers epoch := by
  rw [create_layer_eq_dfs, create_layer_eq_dfs]
  unfold dfsCreate
  cases ha : analyze_lowers lowers with
  | error e => rfl
  | ok lfldc =>
    dsimp only
    cases h with
    | file m ino nl xs c => rfl
    | sym m tgt => rfl
    | oth m => rfl
    | dir m cs cs3 cs2 hnd hperm hkids =>
      dsimp only
      have e1 : dfsNode ⟨lowers, lfldc.1, lfldc.2, epoch⟩ ⟨".", m, cs⟩
            ⟨[], [], none⟩ =
          dfsList ⟨lowers, lfldc.1, lfldc.2, epoch⟩ [⟨".", m, cs⟩]
            ⟨[], [], none⟩ := by
        rw [dfsList_cons, dfsList_nil]
        rfl
      have e2 : dfsNode ⟨lowers, lfldc.1, lfldc.2, epoch⟩ ⟨".", m, cs2⟩
            ⟨[], [], none⟩ =
          dfsList ⟨lowers, lfldc.1, lfldc.2, epoch⟩ [⟨".", m, cs2⟩]
            ⟨[], [], none⟩ := by
        rw [dfsList_cons, dfsList_nil]
        rfl
      rw [e1, e2]
      exact dfsList_congr ⟨lowers, lfldc.1, lfldc.2, epoch⟩
        (stackMeasure [⟨".", m, cs⟩]) _ _ _ (le_refl _)
        (List.Forall₂.cons ⟨rfl, rfl, hnd, cs3, hperm, hkids⟩
          List.Forall₂.nil)

/-- The file `a` of the two-file determinism fixture. -/
def fxF1 : FSNode := FSNode.file fxMetaFile 0 false [] [104]

/-- The file `b` of the two-file determinism fixture. -/
def fxF2 : FSNode := FSNode.file fxMetaFile 0 false [] [105]

/-- A two-file directory as one scandir pass lists it. -/
def fxU1 : FSNode := FSNode.dir fxMetaDir [("a", fxF1), ("b", fxF2)]

/-- The same directory as another scandir pass lists it. -/
def fxU2 : FSNode := FSNode.dir fxMetaDir [("b", fxF2), ("a", fxF1)]

/-- Witness for C7: the two listings of the same two-file directory are
scandir-equivalent and produce identical runs. -/
theorem C7_determinism_up_to_scandir_order_witness :
    EquivTree fxU1 fxU2 ∧
      create_layer fxU1 [] none = create_layer fxU2 [] none := by
  have he : EquivTree fxU1 fxU2 :=
    EquivTree.dir fxMetaDir [("a", fxF1), ("b", fxF2)]
      [("b", fxF2), ("a", fxF1)] [("b", fxF2), ("a", fxF1)]
      (by decide) (List.Perm.swap ("b", fxF2) ("a", fxF1) [])
      (EquivKids.cons _ _ _ _ rfl
        (EquivTree.file fxMetaFile 0 false [] [105])
        (EquivKids.cons _ _ _ _ rfl
          (EquivTree.file fxMetaFile 0 false [] [104]) EquivKids.nil))
  exact ⟨he, C7_determinism_up_to_scandir_order fxU1 fxU2 [] none he⟩

end OCIBuild
